import Mathlib

/-!
# FAST `GaussianSmoothingFilter`: a shallow embedding and its verified properties

Source: `source/FAST/Algorithms/GaussianSmoothingFilter/GaussianSmoothingFilter.cpp`.

Modelling conventions.

* C++ `unsigned int` values are naturals reduced modulo `2^32` after every operation
  (`uadd`, `usub`, `umul`, `uaddInt`); `unsigned char` and `char` conversions are `toUChar`
  and `toChar` (a signed 8-bit `char`, as the `-1` sentinel of the constructor presupposes).
* `float` / `double` arithmetic is kept abstract: the filter is parametric in a record of
  operations (`FloatOps`, `HostOps`).  Results that do not depend on rounding are proved for
  every such record; results about exact values are proved for `exactOps`, the instance in
  which every operation is the exact operation of an ordered field.
* Raw buffers (`T*`, `float*`) are total functions on offsets; the offsets a run touches are
  recorded in the run's state so that bounds can be stated.
* Only the host branch of `execute` is embedded; the OpenCL branch is outside the model.
-/

namespace FAST

/-! ## Machine integers -/

/-- The modulus of `unsigned int`. -/
def U32 : Nat := 4294967296

/-- Addition of two `unsigned int`. -/
def uadd (a b : Nat) : Nat := (a + b) % U32

/-- Subtraction of two `unsigned int`. -/
def usub (a b : Nat) : Nat := (a + U32 - b % U32) % U32

/-- Multiplication of two `unsigned int`. -/
def umul (a b : Nat) : Nat := (a * b) % U32

/-- Sum `x + a` of an `unsigned int` and an `int`: the `int` is converted to `unsigned int`. -/
def uaddInt (x : Nat) (a : Int) : Nat := (((x : Int) + a) % (U32 : Int)).toNat

/-- Conversion of an integer value to `unsigned char`. -/
def toUChar (z : Int) : Nat := (z % 256).toNat

/-- Conversion of an integer value to `char` (signed, 8 bits, two-complement wrap). -/
def toChar (z : Int) : Int := (z + 128) % 256 - 128

/-- Conversion of an integer value to `char` where the implementation makes `char` unsigned. -/
def toCharUnsigned (z : Int) : Int := z % 256

/-- The C++ expression `(maskSize-1)/2` stored in an `unsigned char`: the subtraction and the
division are `int` operations (division truncates toward zero). -/
def halfSizeOf (maskSize : Nat) : Nat := toUChar (Int.tdiv ((maskSize : Int) - 1) 2)

/-! ## Loops -/

/-- The values `lo, lo+1, ..., hi` of an `int` loop variable. -/
def intRange (lo hi : Int) : List Int :=
  (List.range (hi + 1 - lo).toNat).map (fun (k : Nat) => lo + (k : Int))

/-- Loop `for(int i = lo; i <= hi; i++) body`. -/
def forInt {σ : Type} (lo hi : Int) (body : Int → σ → σ) (s : σ) : σ :=
  (intRange lo hi).foldl (fun st i => body i st) s

/-- Loop `for(unsigned int i = lo; i < hi; i++) body` (with `hi` an `unsigned int` value, so the
increment never wraps before the test fails). -/
def forLoop {σ : Type} (lo hi : Nat) (body : Nat → σ → σ) (s : σ) : σ :=
  (List.range' lo (hi - lo)).foldl (fun st i => body i st) s

/-- The pairs `(x, y)` visited by two nested `int` loops over `-h..h`, outer variable first. -/
def offsets2 (h : Int) : List (Int × Int) :=
  (intRange (-h) h).flatMap (fun x => (intRange (-h) h).map (fun y => (x, y)))

/-- The triples `(x, y, z)` visited by three nested `int` loops over `-h..h`, outermost variable
first. -/
def offsets3 (h : Int) : List (Int × Int × Int) :=
  (intRange (-h) h).flatMap (fun x => (intRange (-h) h).flatMap (fun y =>
    (intRange (-h) h).map (fun z => (x, y, z))))

/-- A sequence of stores `p[i] = v` applied to a buffer. -/
def applyWrites {T : Type} (ws : List (Nat × T)) (f : Nat → T) : Nat → T :=
  ws.foldl (fun g w => Function.update g w.1 w.2) f

/-- A sequence of stores `a[i] = v` applied to an array. -/
def setWrites {F : Type} (ws : List (Nat × F)) (l : List F) : List F :=
  ws.foldl (fun l w => l.set w.1 w.2) l

/-! ## Floating point operations -/

/-- The `float` operations the filter uses. -/
structure FloatOps (F : Type) where
  /-- The literal `0.0f`. -/
  zero : F
  /-- The literal `0.5f`. -/
  half : F
  /-- The literal `2.0f`. -/
  two : F
  /-- Conversion `(float)n` of an `int`. -/
  ofInt : Int → F
  /-- Unary minus. -/
  neg : F → F
  /-- Addition. -/
  add : F → F → F
  /-- Multiplication. -/
  mul : F → F → F
  /-- Division. -/
  div : F → F → F
  /-- The function `exp`. -/
  exp : F → F
  /-- The function `ceil`. -/
  ceil : F → F
  /-- Conversion to an integer type (the fractional part is discarded). -/
  toInt : F → Int
  /-- The test `x <= 0`. -/
  leZero : F → Bool

/-- Exact arithmetic in an ordered field, with a given exponential function. -/
def exactOps (F : Type) [LinearOrderedField F] [FloorRing F] (exp : F → F) : FloatOps F where
  zero := 0
  half := 1 / 2
  two := 2
  ofInt := fun z => (z : F)
  neg := fun x => -x
  add := fun x y => x + y
  mul := fun x y => x * y
  div := fun x y => x / y
  exp := exp
  ceil := fun x => ((⌈x⌉ : Int) : F)
  toInt := fun x => if 0 ≤ x then ⌊x⌋ else ⌈x⌉
  leZero := fun x => decide (x ≤ 0)

/-! ## The mask of the specification -/

/-- The unnormalised weight `exp(−‖o‖² / (2σ²))` of the specification, as a function of the
squared norm `sq` of the offset. -/
def gaussWeight {F : Type} [Field F] (exp : F → F) (stdDev : F) (sq : Int) : F :=
  exp (-(sq : F) / (2 * stdDev ^ 2))

/-- The sum of the weights over all offsets in `[-h, h]²`. -/
def gaussTotal2 {F : Type} [Field F] (exp : F → F) (stdDev : F) (h : Nat) : F :=
  ∑ x ∈ Finset.Icc (-(h : Int)) h, ∑ y ∈ Finset.Icc (-(h : Int)) h,
    gaussWeight exp stdDev (x ^ 2 + y ^ 2)

/-- The sum of the weights over all offsets in `[-h, h]³`. -/
def gaussTotal3 {F : Type} [Field F] (exp : F → F) (stdDev : F) (h : Nat) : F :=
  ∑ x ∈ Finset.Icc (-(h : Int)) h, ∑ y ∈ Finset.Icc (-(h : Int)) h,
    ∑ z ∈ Finset.Icc (-(h : Int)) h, gaussWeight exp stdDev (x ^ 2 + y ^ 2 + z ^ 2)

/-! ## The filter object -/

/-- The exceptions the setters throw. -/
inductive Exception where
  | maskSizeNotPositive
  | maskSizeNotOdd
  | stdDevNotPositive
  deriving DecidableEq, Repr

/-- The member variables of `GaussianSmoothingFilter` that the host path uses, as the
constructor initialises them.  `mMask` is the array behind the pointer (`[]` for `NULL`).  The
header that declares the members is not among the sources: `mMaskSize` is taken to hold the
value assigned to it (a mask size, or `-1` for "not set"); it is read only through
`char maskSize = mMaskSize` in `execute`. -/
structure GaussianSmoothingFilter (F : Type) where
  mStdDev : F
  mMaskSize : Int
  mIsModified : Bool
  mRecreateMask : Bool
  mDimensionCLCodeCompiledFor : Nat
  mMask : List F
  mOutputTypeSet : Bool

namespace GaussianSmoothingFilter

variable {F : Type}

/-- The constructor `GaussianSmoothingFilter::GaussianSmoothingFilter()`. -/
def ctor (ops : FloatOps F) : GaussianSmoothingFilter F where
  mStdDev := ops.half
  mMaskSize := -1
  mIsModified := true
  mRecreateMask := true
  mDimensionCLCodeCompiledFor := 0
  mMask := []
  mOutputTypeSet := false

/-- The method `setMaskSize(unsigned char maskSize)`: the exception thrown, if any, and the
state after the call. -/
def setMaskSize (s : GaussianSmoothingFilter F) (maskSize : Nat) :
    Option Exception × GaussianSmoothingFilter F :=
  if maskSize ≤ 0 then (some Exception.maskSizeNotPositive, s)
  else if maskSize % 2 ≠ 1 then (some Exception.maskSizeNotOdd, s)
  else (none, { s with mMaskSize := (maskSize : Int), mIsModified := true, mRecreateMask := true })

/-- The method `setStandardDeviation(float stdDev)`. -/
def setStandardDeviation (ops : FloatOps F) (s : GaussianSmoothingFilter F) (stdDev : F) :
    Option Exception × GaussianSmoothingFilter F :=
  if ops.leZero stdDev then (some Exception.stdDevNotPositive, s)
  else (none, { s with mStdDev := stdDev, mIsModified := true, mRecreateMask := true })

/-- The local `char maskSize` of `execute` after lines 201-206: the stored size, replaced by
`ceil(2*mStdDev)*2+1` when it is not positive, then clamped to 19.  `toCharT` is the conversion
of an integer value to the type `char`, whose signedness the implementation chooses; the
conversion of the computed `float` value to `char` takes its integer part first. -/
def executeMaskSizeWith (toCharT : Int → Int) (ops : FloatOps F)
    (s : GaussianSmoothingFilter F) : Int :=
  let maskSize := toCharT s.mMaskSize
  let maskSize :=
    if maskSize ≤ 0 then
      toCharT (ops.toInt (ops.add (ops.mul (ops.ceil (ops.mul (ops.ofInt 2) s.mStdDev))
        (ops.ofInt 2)) (ops.ofInt 1)))
    else maskSize
  if maskSize > 19 then 19 else maskSize

/-- The local `char maskSize` of `execute` with a signed `char`, which the sentinel `-1` and
the test `maskSize <= 0` presuppose. -/
def executeMaskSize (ops : FloatOps F) (s : GaussianSmoothingFilter F) : Int :=
  executeMaskSizeWith toChar ops s

/-- The `unsigned char` argument that `execute` passes to `createMask` and to
`executeAlgorithmOnHost`. -/
def effectiveMaskSize (ops : FloatOps F) (s : GaussianSmoothingFilter F) : Nat :=
  toUChar (executeMaskSize ops s)

/-- The value `exp(-(float)(sq)/(2.0f*mStdDev*mStdDev))` computed in the loops of `createMask`,
where `sq` is the `int` value `x*x+y*y` or `x*x+y*y+z*z`. -/
def maskValue (ops : FloatOps F) (stdDev : F) (sq : Int) : F :=
  ops.exp (ops.div (ops.neg (ops.ofInt sq)) (ops.mul (ops.mul ops.two stdDev) stdDev))

/-- The rank 2 branch of `createMask` up to the normalisation loop: the freshly allocated array
after the two nested loops, and the value of `sum`.  The array obtained from `new float[n]` is
modelled with `n` cells holding `0.0f`; for the odd sizes `execute` passes, every cell is
overwritten before it is read. -/
def fillMask2 (ops : FloatOps F) (stdDev : F) (maskSize : Nat) : List F × F :=
  let halfSize : Int := (halfSizeOf maskSize : Int)
  let m : Int := (maskSize : Int)
  forInt (-halfSize) halfSize (fun x st =>
  forInt (-halfSize) halfSize (fun y st =>
    let value := maskValue ops stdDev (x * x + y * y)
    (st.1.set (x + halfSize + (y + halfSize) * m).toNat value, ops.add st.2 value)) st)
  (List.replicate (maskSize * maskSize) ops.zero, ops.zero)

/-- The rank 3 branch of `createMask` up to the normalisation loop. -/
def fillMask3 (ops : FloatOps F) (stdDev : F) (maskSize : Nat) : List F × F :=
  let halfSize : Int := (halfSizeOf maskSize : Int)
  let m : Int := (maskSize : Int)
  forInt (-halfSize) halfSize (fun x st =>
  forInt (-halfSize) halfSize (fun y st =>
  forInt (-halfSize) halfSize (fun z st =>
    let value := maskValue ops stdDev (x * x + y * y + z * z)
    (st.1.set (x + halfSize + (y + halfSize) * m + (z + halfSize) * m * m).toNat value,
      ops.add st.2 value)) st) st)
  (List.replicate (maskSize * maskSize * maskSize) ops.zero, ops.zero)

/-- The loop `for(int i = 0; i < n; ++i) mMask[i] /= sum;`. -/
def normalizeMask (ops : FloatOps F) (n : Nat) (filled : List F × F) : List F :=
  forLoop 0 n (fun i mk => mk.set i (ops.div (mk.getD i ops.zero) filled.2)) filled.1

/-- The method `createMask(Image::pointer input, uchar maskSize)` on the host device; of the
input only `getDimensions()` is used. -/
def createMask (ops : FloatOps F) (s : GaussianSmoothingFilter F) (dimensions maskSize : Nat) :
    GaussianSmoothingFilter F :=
  if !s.mRecreateMask then s
  else
    let s1 : GaussianSmoothingFilter F :=
      if dimensions = 2 then
        { s with mMask :=
            normalizeMask ops (maskSize * maskSize) (fillMask2 ops s.mStdDev maskSize) }
      else if dimensions = 3 then
        { s with mMask :=
            normalizeMask ops (maskSize * maskSize * maskSize) (fillMask3 ops s.mStdDev maskSize) }
      else s
    { s1 with mRecreateMask := false }

/-- The stores `mMask[x+halfSize+(y+halfSize)*maskSize] = value` of the rank 2 loops of
`createMask`, in program order. -/
def maskWrites2 (ops : FloatOps F) (stdDev : F) (maskSize : Nat) : List (Nat × F) :=
  (offsets2 (halfSizeOf maskSize)).map (fun p =>
    ((p.1 + (halfSizeOf maskSize : Int) + (p.2 + (halfSizeOf maskSize : Int)) * (maskSize : Int)).toNat,
      maskValue ops stdDev (p.1 * p.1 + p.2 * p.2)))

/-- The stores of the rank 3 loops of `createMask`, in program order. -/
def maskWrites3 (ops : FloatOps F) (stdDev : F) (maskSize : Nat) : List (Nat × F) :=
  (offsets3 (halfSizeOf maskSize)).map (fun p =>
    ((p.1 + (halfSizeOf maskSize : Int) + (p.2.1 + (halfSizeOf maskSize : Int)) * (maskSize : Int)
        + (p.2.2 + (halfSizeOf maskSize : Int)) * (maskSize : Int) * (maskSize : Int)).toNat,
      maskValue ops stdDev (p.1 * p.1 + p.2.1 * p.2.1 + p.2.2 * p.2.2)))

/-- The value of the variable `sum` after the loops of `createMask`, given the stores made. -/
def maskTotal (ops : FloatOps F) (ws : List (Nat × F)) : F :=
  (ws.map Prod.snd).foldl ops.add ops.zero

/-- The mask the Mask Builder produces for rank `dimensions`, standard deviation `stdDev` and
mask size `maskSize`: what `createMask` stores when it does build a mask. -/
def builtMask (ops : FloatOps F) (dimensions : Nat) (stdDev : F) (maskSize : Nat) : List F :=
  if dimensions = 2 then normalizeMask ops (maskSize * maskSize) (fillMask2 ops stdDev maskSize)
  else normalizeMask ops (maskSize * maskSize * maskSize) (fillMask3 ops stdDev maskSize)

end GaussianSmoothingFilter

/-! ## Images and the host executor -/

/-- Modelled from the spec: the class `Image` (its header is not among the sources), reduced to
the attributes the host executor reads: rank, extent, component count and the row-major,
component-interleaved pixel buffer. -/
structure Image (T : Type) where
  dimensions : Nat
  width : Nat
  height : Nat
  depth : Nat
  nrOfComponents : Nat
  data : Nat → T

/-- Number of elements of the pixel buffer of an image. -/
def Image.size {T : Type} (img : Image T) : Nat :=
  if img.dimensions = 3 then img.width * img.height * img.depth * img.nrOfComponents
  else img.width * img.height * img.nrOfComponents

/-- The extent and the buffer length of an image are `unsigned int` values, and a pixel has at
least one component. -/
structure Image.WF {T : Type} (img : Image T) : Prop where
  width_lt : img.width < U32
  height_lt : img.height < U32
  depth_lt : img.depth < U32
  comps_pos : 0 < img.nrOfComponents
  size_lt : img.size < U32

/-- The arithmetic of the inner loop of `executeAlgorithmOnHost<T>`: `mask[i]*inputData[j]` (a
`float` times a `T`) added to a `double` accumulator, and the final conversion `(T)sum`. -/
structure HostOps (F T D : Type) where
  /-- The literal `0.0` of the accumulator. -/
  zero : D
  /-- The product `mask[i]*inputData[j]`, as a value of the accumulator type. -/
  prod : F → T → D
  /-- Addition in the accumulator type. -/
  add : D → D → D
  /-- Conversion `(T)sum`. -/
  cast : D → T

/-- The accumulator of the convolution loops, with the offsets read so far. -/
structure SumState (D : Type) where
  sum : D
  inputReads : List Nat
  maskReads : List Int

/-- The output buffer during a run of the host executor, with the offsets accessed so far
(most recent first). -/
structure HostState (T : Type) where
  outputData : Nat → T
  inputReads : List Nat
  maskReads : List Int
  outputWrites : List Nat

/-- The offset `x*nrOfComponents+y*nrOfComponents*width` (`unsigned int` arithmetic). -/
def offset2 (nrOfComponents width x y : Nat) : Nat :=
  uadd (umul x nrOfComponents) (umul (umul y nrOfComponents) width)

/-- The offset `x*nrOfComponents+y*nrOfComponents*width+z*nrOfComponents*width*height`
(`unsigned int` arithmetic). -/
def offset3 (nrOfComponents width height x y z : Nat) : Nat :=
  uadd (uadd (umul x nrOfComponents) (umul (umul y nrOfComponents) width))
    (umul (umul (umul z nrOfComponents) width) height)

/-- The border branch: `outputData[i] = inputData[i]`. -/
def copyPixel {T : Type} (inputData : Nat → T) (i : Nat) (st : HostState T) : HostState T :=
  { st with
    outputData := Function.update st.outputData i (inputData i)
    inputReads := i :: st.inputReads
    outputWrites := i :: st.outputWrites }

/-- The statement `outputData[i] = (T)sum` after the convolution loops. -/
def storeSum {F T D : Type} (ops : HostOps F T D) (i : Nat) (acc : SumState D)
    (st : HostState T) : HostState T :=
  { outputData := Function.update st.outputData i (ops.cast acc.sum)
    inputReads := acc.inputReads
    maskReads := acc.maskReads
    outputWrites := i :: st.outputWrites }

/-- The statement `sum += mask[mi]*inputData[ii]`. -/
def accumulate {F T D : Type} (ops : HostOps F T D) (mask : Nat → F) (inputData : Nat → T)
    (mi : Int) (ii : Nat) (acc : SumState D) : SumState D :=
  { sum := ops.add acc.sum (ops.prod (mask mi.toNat) (inputData ii))
    inputReads := ii :: acc.inputReads
    maskReads := mi :: acc.maskReads }

/-- The three nested convolution loops of the rank 3 branch at pixel `(x, y, z)`. -/
def convolveAt3 {F T D : Type} (ops : HostOps F T D) (input : Image T) (mask : Nat → F)
    (maskSize : Nat) (x y z : Nat) (st : HostState T) : SumState D :=
  let nrOfComponents := input.nrOfComponents
  let h : Int := (halfSizeOf maskSize : Int)
  let m : Int := (maskSize : Int)
  forInt (-h) h (fun c acc =>
  forInt (-h) h (fun b acc =>
  forInt (-h) h (fun a acc =>
    accumulate ops mask input.data
      (a + h + (b + h) * m + (c + h) * m * m)
      (offset3 nrOfComponents input.width input.height (uaddInt x a) (uaddInt y b) (uaddInt z c))
      acc) acc) acc)
  ⟨ops.zero, st.inputReads, st.maskReads⟩

/-- The two nested convolution loops of the rank 2 branch at pixel `(x, y)`. -/
def convolveAt2 {F T D : Type} (ops : HostOps F T D) (input : Image T) (mask : Nat → F)
    (maskSize : Nat) (x y : Nat) (st : HostState T) : SumState D :=
  let nrOfComponents := input.nrOfComponents
  let h : Int := (halfSizeOf maskSize : Int)
  let m : Int := (maskSize : Int)
  forInt (-h) h (fun b acc =>
  forInt (-h) h (fun a acc =>
    accumulate ops mask input.data
      (a + h + (b + h) * m)
      (offset2 nrOfComponents input.width (uaddInt x a) (uaddInt y b))
      acc) acc)
  ⟨ops.zero, st.inputReads, st.maskReads⟩

/-- The body of the innermost pixel loop of the rank 3 branch. -/
def pixel3 {F T D : Type} (ops : HostOps F T D) (input : Image T) (mask : Nat → F)
    (maskSize : Nat) (x y z : Nat) (st : HostState T) : HostState T :=
  let halfSize := halfSizeOf maskSize
  if x < halfSize ∨ x ≥ usub input.width halfSize ∨
      y < halfSize ∨ y ≥ usub input.height halfSize ∨
      z < halfSize ∨ z ≥ usub input.depth halfSize then
    copyPixel input.data (offset3 input.nrOfComponents input.width input.height x y z) st
  else
    storeSum ops (offset3 input.nrOfComponents input.width input.height x y z)
      (convolveAt3 ops input mask maskSize x y z st) st

/-- The body of the innermost pixel loop of the rank 2 branch. -/
def pixel2 {F T D : Type} (ops : HostOps F T D) (input : Image T) (mask : Nat → F)
    (maskSize : Nat) (x y : Nat) (st : HostState T) : HostState T :=
  let halfSize := halfSizeOf maskSize
  if x < halfSize ∨ x ≥ usub input.width halfSize ∨
      y < halfSize ∨ y ≥ usub input.height halfSize then
    copyPixel input.data (offset2 input.nrOfComponents input.width x y) st
  else
    storeSum ops (offset2 input.nrOfComponents input.width x y)
      (convolveAt2 ops input mask maskSize x y st) st

/-- The function template `executeAlgorithmOnHost<T>(input, output, mask, maskSize)`; the
buffer of `output` is passed as `outputData`. -/
def executeAlgorithmOnHost {F T D : Type} (ops : HostOps F T D) (input : Image T)
    (outputData : Nat → T) (mask : Nat → F) (maskSize : Nat) : HostState T :=
  let halfSize := halfSizeOf maskSize
  let width := input.width
  let height := input.height
  let start : HostState T := ⟨outputData, [], [], []⟩
  if input.dimensions = 3 then
    let depth := input.depth
    forLoop 0 depth (fun z st =>
    forLoop 0 height (fun y st =>
    forLoop 0 width (fun x st => pixel3 ops input mask maskSize x y z st) st) st) start
  else
    forLoop halfSize (usub height halfSize) (fun y st =>
    forLoop halfSize (usub width halfSize) (fun x st =>
      pixel2 ops input mask maskSize x y st) st) start

/-- The coordinates `(z, y, x)` visited by the pixel loops of the rank 3 branch, in order. -/
def grid3 (depth height width : Nat) : List (Nat × Nat × Nat) :=
  (List.range' 0 depth).flatMap (fun z => (List.range' 0 height).flatMap (fun y =>
    (List.range' 0 width).map (fun x => (z, y, x))))

/-- The coordinates `(y, x)` visited by the pixel loops of the rank 2 branch, in order. -/
def grid2 (halfSize height width : Nat) : List (Nat × Nat) :=
  (List.range' halfSize (usub height halfSize - halfSize)).flatMap (fun y =>
    (List.range' halfSize (usub width halfSize - halfSize)).map (fun x => (y, x)))

/-- The convolution of the specification at the rank 3 pixel `(x, y, z)`: the sum, over the
offsets `(a, b, c)` of `[-h, h]³`, of `mask[(a+h) + (b+h)·m + (c+h)·m²]` times component 0 of
the input at `(x+a, y+b, z+c)`, added up in the accumulator type. -/
def convolve3 {F T D : Type} (ops : HostOps F T D) (input : Image T) (mask : Nat → F)
    (m h : Nat) (x y z : Nat) : D :=
  (offsets3 (h : Int)).foldl (fun acc p =>
    ops.add acc (ops.prod
      (mask (p.2.2 + (h : Int) + (p.2.1 + (h : Int)) * (m : Int)
        + (p.1 + (h : Int)) * (m : Int) * (m : Int)).toNat)
      (input.data (((x : Int) + p.2.2).toNat * input.nrOfComponents
        + ((y : Int) + p.2.1).toNat * input.nrOfComponents * input.width
        + ((z : Int) + p.1).toNat * input.nrOfComponents * input.width * input.height))))
    ops.zero

/-- The convolution of the specification at the rank 2 pixel `(x, y)`. -/
def convolve2 {F T D : Type} (ops : HostOps F T D) (input : Image T) (mask : Nat → F)
    (m h : Nat) (x y : Nat) : D :=
  (offsets2 (h : Int)).foldl (fun acc p =>
    ops.add acc (ops.prod
      (mask (p.2 + (h : Int) + (p.1 + (h : Int)) * (m : Int)).toNat)
      (input.data (((x : Int) + p.2).toNat * input.nrOfComponents
        + ((y : Int) + p.1).toNat * input.nrOfComponents * input.width))))
    ops.zero

/-- The value the specification gives to component 0 of the rank 3 output pixel `(x, y, z)`:
the input value within `h` of a boundary, the converted convolution elsewhere. -/
def specValue3 {F T D : Type} (ops : HostOps F T D) (input : Image T) (mask : Nat → F)
    (m h : Nat) (x y z : Nat) : T :=
  if x < h ∨ input.width ≤ x + h ∨ y < h ∨ input.height ≤ y + h ∨
      z < h ∨ input.depth ≤ z + h then
    input.data (x * input.nrOfComponents + y * input.nrOfComponents * input.width
      + z * input.nrOfComponents * input.width * input.height)
  else ops.cast (convolve3 ops input mask m h x y z)

/-- The method `execute()` on the host device, for an input image with elements of type `T`
(the instance `executeAlgorithmOnHost<T>` that `fastSwitchTypeMacro` selects): the filter state
after the call and the run of the host executor.  `outputData` is the content of the freshly
created output buffer.  The output-type members and the OpenCL branch are not modelled. -/
def GaussianSmoothingFilter.execute {F T D : Type} (fops : FloatOps F) (hops : HostOps F T D)
    (s : GaussianSmoothingFilter F) (input : Image T) (outputData : Nat → T) :
    GaussianSmoothingFilter F × HostState T :=
  let maskSize := GaussianSmoothingFilter.executeMaskSize fops s
  let s1 := GaussianSmoothingFilter.createMask fops s input.dimensions (toUChar maskSize)
  (s1, executeAlgorithmOnHost hops input outputData (fun i => s1.mMask.getD i fops.zero)
    (toUChar maskSize))

/-- Exact arithmetic for integer-valued pixels: products and sums in an ordered field, the
final conversion truncating toward zero. -/
def exactHostOps (F : Type) [LinearOrderedField F] [FloorRing F] : HostOps F Int F where
  zero := 0
  prod := fun w v => w * (v : F)
  add := fun x y => x + y
  cast := fun x => if 0 ≤ x then ⌊x⌋ else ⌈x⌉

/-- Every offset recorded in the state of a run lies inside its buffer: the input and output
buffers have `input.size` elements, the mask has `maskLength` elements. -/
def HostState.InBounds {T : Type} (input : Image T) (maskLength : Nat) (st : HostState T) :
    Prop :=
  (∀ i ∈ st.inputReads, i < input.size) ∧ (∀ i ∈ st.outputWrites, i < input.size) ∧
    (∀ j ∈ st.maskReads, 0 ≤ j ∧ j < (maskLength : Int))

/-! ## Sample inputs -/

/-- A 3×3 single-component rank 2 image whose pixel at buffer offset `i` holds `i`. -/
def rampImage3x3 : Image Int := ⟨2, 3, 3, 1, 1, fun i => (i : Int)⟩

/-- A 5×5 single-component rank 2 image whose pixel at buffer offset `i` holds `i`. -/
def rampImage5x5 : Image Int := ⟨2, 5, 5, 1, 1, fun i => (i : Int)⟩

/-- A 5×5×5 single-component rank 3 image whose voxel at buffer offset `i` holds `i`. -/
def rampVolume5 : Image Int := ⟨3, 5, 5, 5, 1, fun i => (i : Int)⟩

/-- A rank 2 image 5 pixels wide and 1 pixel high, with one component. -/
def stripImage5x1 : Image Int := ⟨2, 5, 1, 1, 1, fun i => (i : Int)⟩

/-! ## Loops as folds over flat lists -/

theorem mem_intRange {lo hi a : Int} : a ∈ intRange lo hi ↔ lo ≤ a ∧ a ≤ hi := by
  unfold intRange
  simp only [List.mem_map, List.mem_range]
  constructor
  · rintro ⟨k, hk, rfl⟩
    omega
  · rintro ⟨h1, h2⟩
    exact ⟨(a - lo).toNat, by omega, by omega⟩

theorem foldl_flatMap_eq {α β σ : Type} (l : List α) (g : α → List β) (f : σ → β → σ) (s : σ) :
    (l.flatMap g).foldl f s = l.foldl (fun acc x => (g x).foldl f acc) s := by
  induction l generalizing s with
  | nil => simp
  | cons x xs ih => simp [List.flatMap_cons, List.foldl_append, ih]

theorem foldl_proj {ι σ τ : Type} (proj : σ → τ) (body : σ → ι → σ) (g : τ → ι → τ)
    (l : List ι) (h : ∀ i ∈ l, ∀ s, proj (body s i) = g (proj s) i) (s : σ) :
    proj (l.foldl body s) = l.foldl g (proj s) := by
  induction l generalizing s with
  | nil => rfl
  | cons x xs ih =>
    simp only [List.foldl_cons]
    rw [ih (fun i hi => h i (List.mem_cons_of_mem _ hi)), h x (List.mem_cons_self _ _)]

theorem foldl_invariant {ι σ : Type} (P : σ → Prop) (body : σ → ι → σ) (l : List ι)
    (h : ∀ i ∈ l, ∀ s, P s → P (body s i)) (s : σ) (hs : P s) : P (l.foldl body s) := by
  induction l generalizing s with
  | nil => exact hs
  | cons x xs ih =>
    simp only [List.foldl_cons]
    exact ih (fun i hi => h i (List.mem_cons_of_mem _ hi)) _ (h x (List.mem_cons_self _ _) s hs)

theorem foldl_congr_mem {ι σ : Type} (f g : σ → ι → σ) (l : List ι)
    (h : ∀ i ∈ l, ∀ s, f s i = g s i) (s : σ) : l.foldl f s = l.foldl g s := by
  induction l generalizing s with
  | nil => rfl
  | cons x xs ih =>
    simp only [List.foldl_cons]
    rw [h x (List.mem_cons_self _ _), ih (fun i hi => h i (List.mem_cons_of_mem _ hi))]

theorem mem_offsets2 {h : Int} {p : Int × Int} :
    p ∈ offsets2 h ↔ (-h ≤ p.1 ∧ p.1 ≤ h) ∧ (-h ≤ p.2 ∧ p.2 ≤ h) := by
  obtain ⟨a, b⟩ := p
  unfold offsets2
  simp only [List.mem_flatMap, List.mem_map, mem_intRange, Prod.mk.injEq]
  constructor
  · rintro ⟨x, hx, y, hy, rfl, rfl⟩
    exact ⟨hx, hy⟩
  · rintro ⟨hx, hy⟩
    exact ⟨a, hx, b, hy, rfl, rfl⟩

theorem mem_offsets3 {h : Int} {p : Int × Int × Int} :
    p ∈ offsets3 h ↔
      (-h ≤ p.1 ∧ p.1 ≤ h) ∧ (-h ≤ p.2.1 ∧ p.2.1 ≤ h) ∧ (-h ≤ p.2.2 ∧ p.2.2 ≤ h) := by
  obtain ⟨a, b, c⟩ := p
  unfold offsets3
  simp only [List.mem_flatMap, List.mem_map, mem_intRange, Prod.mk.injEq]
  constructor
  · rintro ⟨x, hx, y, hy, z, hz, rfl, rfl, rfl⟩
    exact ⟨hx, hy, hz⟩
  · rintro ⟨hx, hy, hz⟩
    exact ⟨a, hx, b, hy, c, hz, rfl, rfl, rfl⟩

theorem forInt2_eq_foldl {σ : Type} (h : Int) (body : Int → Int → σ → σ) (s : σ) :
    forInt (-h) h (fun x st => forInt (-h) h (fun y st => body x y st) st) s =
      (offsets2 h).foldl (fun st p => body p.1 p.2 st) s := by
  unfold forInt offsets2
  rw [foldl_flatMap_eq]
  simp only [List.foldl_map]

theorem forInt3_eq_foldl {σ : Type} (h : Int) (body : Int → Int → Int → σ → σ) (s : σ) :
    forInt (-h) h (fun x st => forInt (-h) h (fun y st =>
        forInt (-h) h (fun z st => body x y z st) st) st) s =
      (offsets3 h).foldl (fun st p => body p.1 p.2.1 p.2.2 st) s := by
  unfold forInt offsets3
  rw [foldl_flatMap_eq]
  simp only [foldl_flatMap_eq, List.foldl_map]

/-! ## Sequences of writes -/

theorem applyWrites_cons {T : Type} (w : Nat × T) (ws : List (Nat × T)) (f : Nat → T) :
    applyWrites (w :: ws) f = applyWrites ws (Function.update f w.1 w.2) := rfl

theorem applyWrites_of_forall_ne {T : Type} (ws : List (Nat × T)) (f : Nat → T) (i : Nat)
    (h : ∀ w ∈ ws, w.1 ≠ i) : applyWrites ws f i = f i := by
  induction ws generalizing f with
  | nil => rfl
  | cons w ws ih =>
    rw [applyWrites_cons, ih _ (fun w2 h2 => h w2 (List.mem_cons_of_mem _ h2))]
    exact Function.update_noteq (Ne.symm (h w (List.mem_cons_self _ _))) _ _

theorem applyWrites_of_mem {T : Type} (ws : List (Nat × T)) (f : Nat → T) (i : Nat) (v : T)
    (hmem : (i, v) ∈ ws) (hcons : ∀ w ∈ ws, w.1 = i → w.2 = v) : applyWrites ws f i = v := by
  induction ws generalizing f with
  | nil => simp at hmem
  | cons w ws ih =>
    rw [applyWrites_cons]
    by_cases hin : ∃ w2 ∈ ws, w2.1 = i
    · obtain ⟨w2, hw2, hi2⟩ := hin
      have hv : w2.2 = v := hcons w2 (List.mem_cons_of_mem _ hw2) hi2
      have hw2eq : w2 = (i, v) := Prod.ext hi2 hv
      exact ih _ (hw2eq ▸ hw2) (fun w3 h3 => hcons w3 (List.mem_cons_of_mem _ h3))
    · have hne : ∀ w2 ∈ ws, w2.1 ≠ i := fun w2 hw2 hi2 => hin ⟨w2, hw2, hi2⟩
      rw [applyWrites_of_forall_ne ws _ i hne]
      have hw : w = (i, v) := by
        rcases List.mem_cons.1 hmem with h1 | h1
        · exact h1.symm
        · exact absurd rfl (hne _ h1)
      subst hw
      simp

theorem setWrites_cons {F : Type} (w : Nat × F) (ws : List (Nat × F)) (l : List F) :
    setWrites (w :: ws) l = setWrites ws (l.set w.1 w.2) := rfl

theorem length_setWrites {F : Type} (ws : List (Nat × F)) (l : List F) :
    (setWrites ws l).length = l.length := by
  induction ws generalizing l with
  | nil => rfl
  | cons w ws ih => rw [setWrites_cons, ih, List.length_set]

theorem setWrites_of_forall_ne {F : Type} (ws : List (Nat × F)) (l : List F) (i : Nat)
    (h : ∀ w ∈ ws, w.1 ≠ i) : (setWrites ws l)[i]? = l[i]? := by
  induction ws generalizing l with
  | nil => rfl
  | cons w ws ih =>
    rw [setWrites_cons, ih _ (fun w2 h2 => h w2 (List.mem_cons_of_mem _ h2))]
    exact List.getElem?_set_ne (h w (List.mem_cons_self _ _))

theorem setWrites_of_mem {F : Type} (ws : List (Nat × F)) (l : List F) (i : Nat) (v : F)
    (hi : i < l.length) (hmem : (i, v) ∈ ws) (hcons : ∀ w ∈ ws, w.1 = i → w.2 = v) :
    (setWrites ws l)[i]? = some v := by
  induction ws generalizing l with
  | nil => simp at hmem
  | cons w ws ih =>
    rw [setWrites_cons]
    by_cases hin : ∃ w2 ∈ ws, w2.1 = i
    · obtain ⟨w2, hw2, hi2⟩ := hin
      have hv : w2.2 = v := hcons w2 (List.mem_cons_of_mem _ hw2) hi2
      have hw2eq : w2 = (i, v) := Prod.ext hi2 hv
      exact ih _ (by rw [List.length_set]; exact hi) (hw2eq ▸ hw2)
        (fun w3 h3 => hcons w3 (List.mem_cons_of_mem _ h3))
    · have hne : ∀ w2 ∈ ws, w2.1 ≠ i := fun w2 hw2 hi2 => hin ⟨w2, hw2, hi2⟩
      rw [setWrites_of_forall_ne ws _ i hne]
      have hw : w = (i, v) := by
        rcases List.mem_cons.1 hmem with h1 | h1
        · exact h1.symm
        · exact absurd rfl (hne _ h1)
      subst hw
      exact List.getElem?_set_self hi

theorem sum_set_of_zero {F : Type} [AddCommMonoid F] (l : List F) (i : Nat) (v : F)
    (h : l[i]? = some 0) : (l.set i v).sum = l.sum + v := by
  induction l generalizing i with
  | nil => simp at h
  | cons a t ih =>
    cases i with
    | zero =>
      simp only [List.getElem?_cons_zero, Option.some.injEq] at h
      subst h
      simp [add_comm]
    | succ j =>
      simp only [List.getElem?_cons_succ] at h
      simp [ih j h, add_assoc]

theorem sum_setWrites_of_zero {F : Type} [AddCommMonoid F] (ws : List (Nat × F)) (l : List F)
    (hnd : (ws.map Prod.fst).Nodup) (hz : ∀ w ∈ ws, l[w.1]? = some 0) :
    (setWrites ws l).sum = l.sum + (ws.map Prod.snd).sum := by
  induction ws generalizing l with
  | nil => simp [setWrites]
  | cons w ws ih =>
    rw [setWrites_cons]
    simp only [List.map_cons, List.nodup_cons, List.mem_map, not_exists, not_and] at hnd
    have hz2 : ∀ w2 ∈ ws, (l.set w.1 w.2)[w2.1]? = some 0 := by
      intro w2 hw2
      rw [List.getElem?_set_ne (fun he => hnd.1 w2 hw2 he.symm)]
      exact hz w2 (List.mem_cons_of_mem _ hw2)
    rw [ih _ hnd.2 hz2, sum_set_of_zero l w.1 w.2 (hz w (List.mem_cons_self _ _))]
    simp [add_assoc]

theorem foldl_add_eq_sum {F : Type} [AddCommMonoid F] (vs : List F) (s : F) :
    vs.foldl (fun x y => x + y) s = s + vs.sum := by
  induction vs generalizing s with
  | nil => simp
  | cons v vs ih => simp [ih, add_assoc]

theorem forLoop_set_map {F : Type} (f : F → F) (d : F) (l : List F) :
    forLoop 0 l.length (fun i mk => mk.set i (f (mk.getD i d))) l = l.map f := by
  have key : ∀ k, k ≤ l.length →
      ((List.range' 0 k).foldl (fun mk i => mk.set i (f (mk.getD i d))) l).length = l.length ∧
      ∀ j, ((List.range' 0 k).foldl (fun mk i => mk.set i (f (mk.getD i d))) l)[j]? =
        if j < k then (l[j]?).map f else l[j]? := by
    intro k
    induction k with
    | zero => intro _; simp
    | succ k ih =>
      intro hk
      obtain ⟨hlen, hget⟩ := ih (by omega)
      rw [List.range'_concat, List.foldl_append]
      simp only [List.foldl_cons, List.foldl_nil, List.length_set, Nat.zero_add, Nat.one_mul]
      refine ⟨hlen, fun j => ?_⟩
      rw [List.getElem?_set]
      by_cases hjk : k = j
      · subst hjk
        have hk1 : k < l.length := by omega
        simp only [if_true, hlen, hk1, Nat.lt_succ_self]
        rw [List.getD_eq_getElem?_getD, hget k]
        simp [List.getElem?_eq_getElem hk1]
      · rw [if_neg hjk, hget j]
        have : (j < k + 1) = (j < k) := by
          apply propext; omega
        simp only [this]
  unfold forLoop
  simp only [Nat.sub_zero]
  obtain ⟨_, hget⟩ := key l.length le_rfl
  apply List.ext_getElem?
  intro j
  rw [hget j, List.getElem?_map]
  by_cases hj : j < l.length
  · simp [hj]
  · simp [hj, List.getElem?_eq_none (by omega : l.length ≤ j)]

theorem foldl_fill {P F : Type} (add : F → F → F) (k : P → Nat) (v : P → F) (ps : List P)
    (l : List F) (s : F) :
    ps.foldl (fun (st : List F × F) p => (st.1.set (k p) (v p), add st.2 (v p))) (l, s) =
      (setWrites (ps.map (fun p => (k p, v p))) l, (ps.map v).foldl add s) := by
  induction ps generalizing l s with
  | nil => rfl
  | cons p ps ih => simp only [List.foldl_cons, List.map_cons, ih, setWrites_cons]

/-! ## Sums over the loop ranges -/

theorem nodup_intRange (lo hi : Int) : (intRange lo hi).Nodup := by
  unfold intRange
  refine List.Nodup.map ?_ (List.nodup_range _)
  intro a b hab
  simp only at hab
  omega

theorem nodup_offsets2 (h : Int) : (offsets2 h).Nodup :=
  List.Nodup.product (nodup_intRange _ _) (nodup_intRange _ _)

theorem offsets3_eq_product (h : Int) :
    offsets3 h = List.product (intRange (-h) h) (List.product (intRange (-h) h) (intRange (-h) h)) := by
  unfold offsets3
  simp only [List.product, List.map_flatMap, List.map_map]
  rfl

theorem nodup_offsets3 (h : Int) : (offsets3 h).Nodup := by
  rw [offsets3_eq_product]
  exact List.Nodup.product (nodup_intRange _ _)
    (List.Nodup.product (nodup_intRange _ _) (nodup_intRange _ _))

theorem sum_map_intRange {F : Type} [AddCommMonoid F] (lo hi : Int) (f : Int → F) :
    ((intRange lo hi).map f).sum = ∑ i ∈ Finset.Icc lo hi, f i := by
  rw [← List.sum_toFinset f (nodup_intRange lo hi)]
  congr 1
  ext a
  simp [mem_intRange]

theorem sum_map_flatMap {α β F : Type} [AddCommMonoid F] (l : List α) (g : α → List β)
    (f : β → F) : ((l.flatMap g).map f).sum = (l.map (fun x => ((g x).map f).sum)).sum := by
  induction l with
  | nil => simp
  | cons x xs ih => simp [List.flatMap_cons, ih]

theorem sum_map_offsets2 {F : Type} [AddCommMonoid F] (h : Int) (f : Int × Int → F) :
    ((offsets2 h).map f).sum =
      ∑ x ∈ Finset.Icc (-h) h, ∑ y ∈ Finset.Icc (-h) h, f (x, y) := by
  unfold offsets2
  rw [sum_map_flatMap, sum_map_intRange]
  refine Finset.sum_congr rfl (fun x _ => ?_)
  rw [List.map_map, sum_map_intRange]
  rfl

theorem sum_map_offsets3 {F : Type} [AddCommMonoid F] (h : Int) (f : Int × Int × Int → F) :
    ((offsets3 h).map f).sum =
      ∑ x ∈ Finset.Icc (-h) h, ∑ y ∈ Finset.Icc (-h) h, ∑ z ∈ Finset.Icc (-h) h,
        f (x, y, z) := by
  unfold offsets3
  rw [sum_map_flatMap, sum_map_intRange]
  refine Finset.sum_congr rfl (fun x _ => ?_)
  rw [sum_map_flatMap, sum_map_intRange]
  refine Finset.sum_congr rfl (fun y _ => ?_)
  rw [List.map_map, sum_map_intRange]
  rfl

theorem mem_setWrites {F : Type} (ws : List (Nat × F)) (l : List F) (u : F)
    (hu : u ∈ setWrites ws l) : u ∈ l ∨ ∃ w ∈ ws, u = w.2 := by
  induction ws generalizing l with
  | nil => exact Or.inl hu
  | cons w ws ih =>
    rw [setWrites_cons] at hu
    rcases ih _ hu with h1 | ⟨w2, hw2, rfl⟩
    · rcases List.mem_or_eq_of_mem_set h1 with h2 | h2
      · exact Or.inl h2
      · exact Or.inr ⟨w, List.mem_cons_self _ _, h2⟩
    · exact Or.inr ⟨w2, List.mem_cons_of_mem _ hw2, rfl⟩


/-! ## Index arithmetic -/

theorem halfSizeOf_eq (m : Nat) (hm : m < 256) : halfSizeOf m = (m - 1) / 2 := by
  unfold halfSizeOf toUChar
  rcases Nat.eq_zero_or_pos m with h | h
  · subst h; decide
  · have h1 : (0:Int) ≤ (m:Int) - 1 := by omega
    rw [Int.tdiv_eq_ediv h1 (by norm_num)]
    omega

theorem halfSizeOf_odd (h : Nat) (hm : 2 * h + 1 < 256) : halfSizeOf (2 * h + 1) = h := by
  rw [halfSizeOf_eq _ hm]
  omega

theorem radix_inj {m a b c d : Int} (ha : 0 ≤ a) (ham : a < m) (hc : 0 ≤ c) (hcm : c < m)
    (h : a + b * m = c + d * m) : a = c ∧ b = d := by
  have h1 : (a + b * m) % m = a := by
    rw [Int.add_mul_emod_self]
    exact Int.emod_eq_of_lt ha ham
  have h2 : (c + d * m) % m = c := by
    rw [Int.add_mul_emod_self]
    exact Int.emod_eq_of_lt hc hcm
  have hac : a = c := by rw [← h1, h, h2]
  refine ⟨hac, ?_⟩
  subst hac
  have hm : m ≠ 0 := by omega
  have h3 : b * m = d * m := by linarith
  exact mul_right_cancel₀ hm h3

theorem index2_bounds {m a b : Int} (ha : 0 ≤ a) (ham : a < m) (hb : 0 ≤ b) (hbm : b < m) :
    0 ≤ a + b * m ∧ a + b * m < m * m := by
  have h1 : 0 ≤ b * m := mul_nonneg hb (by omega)
  have h2 : (b + 1) * m ≤ m * m := mul_le_mul_of_nonneg_right (by omega) (by omega)
  constructor
  · omega
  · nlinarith

theorem index3_bounds {m a b c : Int} (ha : 0 ≤ a) (ham : a < m) (hb : 0 ≤ b) (hbm : b < m)
    (hc : 0 ≤ c) (hcm : c < m) :
    0 ≤ a + b * m + c * m * m ∧ a + b * m + c * m * m < m * m * m := by
  obtain ⟨h1, h2⟩ := index2_bounds ha ham hb hbm
  have hm : 0 ≤ m := by omega
  have h3 : 0 ≤ c * (m * m) := mul_nonneg hc (mul_nonneg hm hm)
  have h4 : (c + 1) * (m * m) ≤ m * (m * m) :=
    mul_le_mul_of_nonneg_right (by omega) (mul_nonneg hm hm)
  constructor
  · nlinarith
  · nlinarith

theorem index3_inj {m a b c a2 b2 c2 : Int} (ha : 0 ≤ a) (ham : a < m) (hb : 0 ≤ b)
    (hbm : b < m) (ha2 : 0 ≤ a2) (ham2 : a2 < m) (hb2 : 0 ≤ b2) (hbm2 : b2 < m)
    (h : a + b * m + c * m * m = a2 + b2 * m + c2 * m * m) : a = a2 ∧ b = b2 ∧ c = c2 := by
  have h1 : a + (b + c * m) * m = a2 + (b2 + c2 * m) * m := by linarith
  obtain ⟨e1, e2⟩ := radix_inj ha ham ha2 ham2 h1
  obtain ⟨e3, e4⟩ := radix_inj hb hbm hb2 hbm2 e2
  exact ⟨e1, e3, e4⟩

/-! ## The mask builder -/

open GaussianSmoothingFilter

theorem forLoop_set_map_of_length {F : Type} (f : F → F) (d : F) (l : List F) (n : Nat)
    (hn : l.length = n) :
    forLoop 0 n (fun i mk => mk.set i (f (mk.getD i d))) l = l.map f := by
  subst hn
  exact forLoop_set_map f d l

theorem createMask_of_not_recreate {F : Type} (ops : FloatOps F) (s : GaussianSmoothingFilter F)
    (hs : s.mRecreateMask = false) (r m : Nat) : createMask ops s r m = s := by
  simp [createMask, hs]

theorem fillMask2_eq {F : Type} (ops : FloatOps F) (stdDev : F) (m : Nat) :
    fillMask2 ops stdDev m =
      (setWrites (maskWrites2 ops stdDev m) (List.replicate (m * m) ops.zero),
        maskTotal ops (maskWrites2 ops stdDev m)) := by
  unfold fillMask2
  simp only
  rw [forInt2_eq_foldl, foldl_fill]
  simp only [maskWrites2, maskTotal, List.map_map]
  rfl

theorem fillMask3_eq {F : Type} (ops : FloatOps F) (stdDev : F) (m : Nat) :
    fillMask3 ops stdDev m =
      (setWrites (maskWrites3 ops stdDev m) (List.replicate (m * m * m) ops.zero),
        maskTotal ops (maskWrites3 ops stdDev m)) := by
  unfold fillMask3
  simp only
  rw [forInt3_eq_foldl, foldl_fill]
  simp only [maskWrites3, maskTotal, List.map_map]
  rfl

theorem normalizeMask_eq {F : Type} (ops : FloatOps F) (n : Nat) (l : List F) (t : F)
    (hn : l.length = n) : normalizeMask ops n (l, t) = l.map (fun v => ops.div v t) := by
  unfold normalizeMask
  exact forLoop_set_map_of_length (fun v => ops.div v t) ops.zero l n hn

theorem createMask_mMask_two {F : Type} (ops : FloatOps F) (s : GaussianSmoothingFilter F)
    (hs : s.mRecreateMask = true) (m : Nat) :
    (createMask ops s 2 m).mMask =
      (setWrites (maskWrites2 ops s.mStdDev m) (List.replicate (m * m) ops.zero)).map
        (fun v => ops.div v (maskTotal ops (maskWrites2 ops s.mStdDev m))) := by
  simp only [createMask, hs, Bool.not_true, Bool.false_eq_true, if_false, if_true]
  rw [fillMask2_eq, normalizeMask_eq _ _ _ _ (by rw [length_setWrites, List.length_replicate])]

theorem createMask_mMask_three {F : Type} (ops : FloatOps F) (s : GaussianSmoothingFilter F)
    (hs : s.mRecreateMask = true) (m : Nat) :
    (createMask ops s 3 m).mMask =
      (setWrites (maskWrites3 ops s.mStdDev m) (List.replicate (m * m * m) ops.zero)).map
        (fun v => ops.div v (maskTotal ops (maskWrites3 ops s.mStdDev m))) := by
  simp only [createMask, hs, Bool.not_true, Bool.false_eq_true, if_false, if_true]
  rw [if_neg (by decide : ¬ (3 = 2))]
  simp only
  rw [fillMask3_eq, normalizeMask_eq _ _ _ _ (by rw [length_setWrites, List.length_replicate])]

theorem maskIndex2_bounds (h : Nat) (x y : Int) (hx1 : -(h : Int) ≤ x) (hx2 : x ≤ h)
    (hy1 : -(h : Int) ≤ y) (hy2 : y ≤ h) :
    0 ≤ x + (h : Int) + (y + (h : Int)) * ((2 * h + 1 : Nat) : Int) ∧
    (x + (h : Int) + (y + (h : Int)) * ((2 * h + 1 : Nat) : Int)).toNat
      < (2 * h + 1) * (2 * h + 1) := by
  have hmz : ((2 * h + 1 : Nat) : Int) = 2 * (h : Int) + 1 := by push_cast; ring
  obtain ⟨hb1, hb2⟩ := index2_bounds (m := ((2 * h + 1 : Nat) : Int)) (a := x + h) (b := y + h)
    (by omega) (by omega) (by omega) (by omega)
  refine ⟨hb1, ?_⟩
  have : ((x + (h : Int) + (y + (h : Int)) * ((2 * h + 1 : Nat) : Int)).toNat : Int)
      < (((2 * h + 1) * (2 * h + 1) : Nat) : Int) := by
    rw [Int.toNat_of_nonneg hb1]
    push_cast at hb2 ⊢
    exact hb2
  exact_mod_cast this

theorem maskIndex2_inj (h : Nat) (x y u v : Int) (hx1 : -(h : Int) ≤ x) (hx2 : x ≤ h)
    (hy1 : -(h : Int) ≤ y) (hy2 : y ≤ h) (hu1 : -(h : Int) ≤ u) (hu2 : u ≤ h)
    (hv1 : -(h : Int) ≤ v) (hv2 : v ≤ h)
    (heq : (x + (h : Int) + (y + (h : Int)) * ((2 * h + 1 : Nat) : Int)).toNat =
      (u + (h : Int) + (v + (h : Int)) * ((2 * h + 1 : Nat) : Int)).toNat) : x = u ∧ y = v := by
  have hmz : ((2 * h + 1 : Nat) : Int) = 2 * (h : Int) + 1 := by push_cast; ring
  obtain ⟨hb1, _⟩ := maskIndex2_bounds h x y hx1 hx2 hy1 hy2
  obtain ⟨hc1, _⟩ := maskIndex2_bounds h u v hu1 hu2 hv1 hv2
  have heq2 : x + (h : Int) + (y + (h : Int)) * ((2 * h + 1 : Nat) : Int) =
      u + (h : Int) + (v + (h : Int)) * ((2 * h + 1 : Nat) : Int) := by
    have := congrArg (fun n : Nat => (n : Int)) heq
    simp only [Int.toNat_of_nonneg hc1, Int.toNat_of_nonneg hb1] at this
    exact this
  obtain ⟨e1, e2⟩ := radix_inj (by omega) (by omega) (by omega) (by omega) heq2
  constructor <;> omega

theorem maskIndex3_bounds (h : Nat) (x y z : Int) (hx1 : -(h : Int) ≤ x) (hx2 : x ≤ h)
    (hy1 : -(h : Int) ≤ y) (hy2 : y ≤ h) (hz1 : -(h : Int) ≤ z) (hz2 : z ≤ h) :
    0 ≤ x + (h : Int) + (y + (h : Int)) * ((2 * h + 1 : Nat) : Int)
          + (z + (h : Int)) * ((2 * h + 1 : Nat) : Int) * ((2 * h + 1 : Nat) : Int) ∧
    (x + (h : Int) + (y + (h : Int)) * ((2 * h + 1 : Nat) : Int)
          + (z + (h : Int)) * ((2 * h + 1 : Nat) : Int) * ((2 * h + 1 : Nat) : Int)).toNat
      < (2 * h + 1) * (2 * h + 1) * (2 * h + 1) := by
  have hmz : ((2 * h + 1 : Nat) : Int) = 2 * (h : Int) + 1 := by push_cast; ring
  obtain ⟨hb1, hb2⟩ := index3_bounds (m := ((2 * h + 1 : Nat) : Int)) (a := x + h) (b := y + h)
    (c := z + h) (by omega) (by omega) (by omega) (by omega) (by omega) (by omega)
  refine ⟨hb1, ?_⟩
  have : ((x + (h : Int) + (y + (h : Int)) * ((2 * h + 1 : Nat) : Int)
          + (z + (h : Int)) * ((2 * h + 1 : Nat) : Int) * ((2 * h + 1 : Nat) : Int)).toNat : Int)
      < (((2 * h + 1) * (2 * h + 1) * (2 * h + 1) : Nat) : Int) := by
    rw [Int.toNat_of_nonneg hb1]
    push_cast at hb2 ⊢
    exact hb2
  exact_mod_cast this

theorem maskIndex3_inj (h : Nat) (x y z u v w : Int) (hx1 : -(h : Int) ≤ x) (hx2 : x ≤ h)
    (hy1 : -(h : Int) ≤ y) (hy2 : y ≤ h) (hz1 : -(h : Int) ≤ z) (hz2 : z ≤ h)
    (hu1 : -(h : Int) ≤ u) (hu2 : u ≤ h) (hv1 : -(h : Int) ≤ v) (hv2 : v ≤ h)
    (hw1 : -(h : Int) ≤ w) (hw2 : w ≤ h)
    (heq : (x + (h : Int) + (y + (h : Int)) * ((2 * h + 1 : Nat) : Int)
          + (z + (h : Int)) * ((2 * h + 1 : Nat) : Int) * ((2 * h + 1 : Nat) : Int)).toNat =
      (u + (h : Int) + (v + (h : Int)) * ((2 * h + 1 : Nat) : Int)
          + (w + (h : Int)) * ((2 * h + 1 : Nat) : Int) * ((2 * h + 1 : Nat) : Int)).toNat) :
    x = u ∧ y = v ∧ z = w := by
  have hmz : ((2 * h + 1 : Nat) : Int) = 2 * (h : Int) + 1 := by push_cast; ring
  obtain ⟨hb1, _⟩ := maskIndex3_bounds h x y z hx1 hx2 hy1 hy2 hz1 hz2
  obtain ⟨hc1, _⟩ := maskIndex3_bounds h u v w hu1 hu2 hv1 hv2 hw1 hw2
  have heq2 : x + (h : Int) + (y + (h : Int)) * ((2 * h + 1 : Nat) : Int)
        + (z + (h : Int)) * ((2 * h + 1 : Nat) : Int) * ((2 * h + 1 : Nat) : Int) =
      u + (h : Int) + (v + (h : Int)) * ((2 * h + 1 : Nat) : Int)
        + (w + (h : Int)) * ((2 * h + 1 : Nat) : Int) * ((2 * h + 1 : Nat) : Int) := by
    have := congrArg (fun n : Nat => (n : Int)) heq
    simp only [Int.toNat_of_nonneg hc1, Int.toNat_of_nonneg hb1] at this
    exact this
  obtain ⟨e1, e2, e3⟩ := index3_inj (by omega) (by omega) (by omega) (by omega) (by omega)
    (by omega) (by omega) (by omega) heq2
  refine ⟨?_, ?_, ?_⟩ <;> omega

theorem mem_maskWrites2 {F : Type} (ops : FloatOps F) (stdDev : F) (h : Nat)
    (hm : 2 * h + 1 < 256) (w : Nat × F) :
    w ∈ maskWrites2 ops stdDev (2 * h + 1) ↔
      ∃ x y : Int, (-(h : Int) ≤ x ∧ x ≤ h) ∧ (-(h : Int) ≤ y ∧ y ≤ h) ∧
        w = ((x + (h : Int) + (y + (h : Int)) * ((2 * h + 1 : Nat) : Int)).toNat,
          maskValue ops stdDev (x * x + y * y)) := by
  unfold maskWrites2
  rw [halfSizeOf_odd h hm]
  constructor
  · intro hw
    obtain ⟨p, hp, rfl⟩ := List.mem_map.1 hw
    obtain ⟨h1, h2⟩ := mem_offsets2.1 hp
    exact ⟨p.1, p.2, h1, h2, rfl⟩
  · rintro ⟨x, y, h1, h2, rfl⟩
    exact List.mem_map.2 ⟨(x, y), mem_offsets2.2 ⟨h1, h2⟩, rfl⟩

theorem mem_maskWrites3 {F : Type} (ops : FloatOps F) (stdDev : F) (h : Nat)
    (hm : 2 * h + 1 < 256) (w : Nat × F) :
    w ∈ maskWrites3 ops stdDev (2 * h + 1) ↔
      ∃ x y z : Int, (-(h : Int) ≤ x ∧ x ≤ h) ∧ (-(h : Int) ≤ y ∧ y ≤ h) ∧
        (-(h : Int) ≤ z ∧ z ≤ h) ∧
        w = ((x + (h : Int) + (y + (h : Int)) * ((2 * h + 1 : Nat) : Int)
              + (z + (h : Int)) * ((2 * h + 1 : Nat) : Int) * ((2 * h + 1 : Nat) : Int)).toNat,
          maskValue ops stdDev (x * x + y * y + z * z)) := by
  unfold maskWrites3
  rw [halfSizeOf_odd h hm]
  constructor
  · intro hw
    obtain ⟨p, hp, rfl⟩ := List.mem_map.1 hw
    obtain ⟨h1, h2, h3⟩ := mem_offsets3.1 hp
    exact ⟨p.1, p.2.1, p.2.2, h1, h2, h3, rfl⟩
  · rintro ⟨x, y, z, h1, h2, h3, rfl⟩
    exact List.mem_map.2 ⟨(x, y, z), mem_offsets3.2 ⟨h1, h2, h3⟩, rfl⟩

/-- The cell of the rank 2 array at offset `(x, y)` after the filling loops. -/
theorem maskWrites2_get {F : Type} (ops : FloatOps F) (stdDev : F) (h : Nat)
    (hm : 2 * h + 1 < 256) (x y : Int) (hx1 : -(h : Int) ≤ x) (hx2 : x ≤ h)
    (hy1 : -(h : Int) ≤ y) (hy2 : y ≤ h) :
    (setWrites (maskWrites2 ops stdDev (2 * h + 1))
        (List.replicate ((2 * h + 1) * (2 * h + 1)) ops.zero))[
          (x + (h : Int) + (y + (h : Int)) * ((2 * h + 1 : Nat) : Int)).toNat]? =
      some (maskValue ops stdDev (x * x + y * y)) := by
  apply setWrites_of_mem
  · rw [List.length_replicate]
    exact (maskIndex2_bounds h x y hx1 hx2 hy1 hy2).2
  · exact (mem_maskWrites2 ops stdDev h hm _).2 ⟨x, y, ⟨hx1, hx2⟩, ⟨hy1, hy2⟩, rfl⟩
  · intro w hw hidx
    obtain ⟨u, v, hu, hv, rfl⟩ := (mem_maskWrites2 ops stdDev h hm _).1 hw
    obtain ⟨e1, e2⟩ := maskIndex2_inj h u v x y hu.1 hu.2 hv.1 hv.2 hx1 hx2 hy1 hy2 hidx
    simp only [e1, e2]

/-- The cell of the rank 3 array at offset `(x, y, z)` after the filling loops. -/
theorem maskWrites3_get {F : Type} (ops : FloatOps F) (stdDev : F) (h : Nat)
    (hm : 2 * h + 1 < 256) (x y z : Int) (hx1 : -(h : Int) ≤ x) (hx2 : x ≤ h)
    (hy1 : -(h : Int) ≤ y) (hy2 : y ≤ h) (hz1 : -(h : Int) ≤ z) (hz2 : z ≤ h) :
    (setWrites (maskWrites3 ops stdDev (2 * h + 1))
        (List.replicate ((2 * h + 1) * (2 * h + 1) * (2 * h + 1)) ops.zero))[
          (x + (h : Int) + (y + (h : Int)) * ((2 * h + 1 : Nat) : Int)
            + (z + (h : Int)) * ((2 * h + 1 : Nat) : Int) * ((2 * h + 1 : Nat) : Int)).toNat]? =
      some (maskValue ops stdDev (x * x + y * y + z * z)) := by
  apply setWrites_of_mem
  · rw [List.length_replicate]
    exact (maskIndex3_bounds h x y z hx1 hx2 hy1 hy2 hz1 hz2).2
  · exact (mem_maskWrites3 ops stdDev h hm _).2
      ⟨x, y, z, ⟨hx1, hx2⟩, ⟨hy1, hy2⟩, ⟨hz1, hz2⟩, rfl⟩
  · intro w hw hidx
    obtain ⟨u, v, t, hu, hv, ht, rfl⟩ := (mem_maskWrites3 ops stdDev h hm _).1 hw
    obtain ⟨e1, e2, e3⟩ := maskIndex3_inj h u v t x y z hu.1 hu.2 hv.1 hv.2 ht.1 ht.2
      hx1 hx2 hy1 hy2 hz1 hz2 hidx
    simp only [e1, e2, e3]

theorem nodup_maskWrites2 {F : Type} (ops : FloatOps F) (stdDev : F) (h : Nat)
    (hm : 2 * h + 1 < 256) : ((maskWrites2 ops stdDev (2 * h + 1)).map Prod.fst).Nodup := by
  unfold maskWrites2
  rw [halfSizeOf_odd h hm, List.map_map]
  refine List.Nodup.map_on ?_ (nodup_offsets2 _)
  intro p hp q hq hpq
  obtain ⟨hp1, hp2⟩ := mem_offsets2.1 hp
  obtain ⟨hq1, hq2⟩ := mem_offsets2.1 hq
  obtain ⟨e1, e2⟩ := maskIndex2_inj h p.1 p.2 q.1 q.2 hp1.1 hp1.2 hp2.1 hp2.2
    hq1.1 hq1.2 hq2.1 hq2.2 hpq
  exact Prod.ext e1 e2

theorem nodup_maskWrites3 {F : Type} (ops : FloatOps F) (stdDev : F) (h : Nat)
    (hm : 2 * h + 1 < 256) : ((maskWrites3 ops stdDev (2 * h + 1)).map Prod.fst).Nodup := by
  unfold maskWrites3
  rw [halfSizeOf_odd h hm, List.map_map]
  refine List.Nodup.map_on ?_ (nodup_offsets3 _)
  intro p hp q hq hpq
  obtain ⟨hp1, hp2, hp3⟩ := mem_offsets3.1 hp
  obtain ⟨hq1, hq2, hq3⟩ := mem_offsets3.1 hq
  obtain ⟨e1, e2, e3⟩ := maskIndex3_inj h p.1 p.2.1 p.2.2 q.1 q.2.1 q.2.2 hp1.1 hp1.2
    hp2.1 hp2.2 hp3.1 hp3.2 hq1.1 hq1.2 hq2.1 hq2.2 hq3.1 hq3.2 hpq
  exact Prod.ext e1 (Prod.ext e2 e3)

/-! ## The mask in exact arithmetic -/

theorem maskValue_exact {F : Type} [LinearOrderedField F] [FloorRing F] (exp : F → F)
    (stdDev : F) (sq : Int) :
    maskValue (exactOps F exp) stdDev sq = gaussWeight exp stdDev sq := by
  unfold maskValue gaussWeight exactOps
  simp only
  rw [pow_two, mul_assoc]

theorem maskTotal_exact {F : Type} [LinearOrderedField F] [FloorRing F] (exp : F → F)
    (ws : List (Nat × F)) : maskTotal (exactOps F exp) ws = (ws.map Prod.snd).sum := by
  unfold maskTotal exactOps
  simp only
  rw [foldl_add_eq_sum, zero_add]

theorem maskTotal2_exact {F : Type} [LinearOrderedField F] [FloorRing F] (exp : F → F)
    (stdDev : F) (h : Nat) (hm : 2 * h + 1 < 256) :
    maskTotal (exactOps F exp) (maskWrites2 (exactOps F exp) stdDev (2 * h + 1)) =
      gaussTotal2 exp stdDev h := by
  rw [maskTotal_exact]
  unfold maskWrites2 gaussTotal2
  rw [halfSizeOf_odd h hm, List.map_map, sum_map_offsets2]
  refine Finset.sum_congr rfl (fun x _ => Finset.sum_congr rfl (fun y _ => ?_))
  simp only [Function.comp, maskValue_exact]
  congr 1
  ring

theorem maskTotal3_exact {F : Type} [LinearOrderedField F] [FloorRing F] (exp : F → F)
    (stdDev : F) (h : Nat) (hm : 2 * h + 1 < 256) :
    maskTotal (exactOps F exp) (maskWrites3 (exactOps F exp) stdDev (2 * h + 1)) =
      gaussTotal3 exp stdDev h := by
  rw [maskTotal_exact]
  unfold maskWrites3 gaussTotal3
  rw [halfSizeOf_odd h hm, List.map_map, sum_map_offsets3]
  refine Finset.sum_congr rfl (fun x _ => Finset.sum_congr rfl (fun y _ =>
    Finset.sum_congr rfl (fun z _ => ?_)))
  simp only [Function.comp, maskValue_exact]
  congr 1
  ring

theorem gaussTotal2_pos {F : Type} [LinearOrderedField F] (exp : F → F)
    (hexp : ∀ x, 0 < exp x) (stdDev : F) (h : Nat) : 0 < gaussTotal2 exp stdDev h := by
  unfold gaussTotal2
  have hne : (Finset.Icc (-(h : Int)) h).Nonempty := ⟨0, by simp⟩
  exact Finset.sum_pos (fun x _ => Finset.sum_pos (fun y _ => hexp _) hne) hne

theorem gaussTotal3_pos {F : Type} [LinearOrderedField F] (exp : F → F)
    (hexp : ∀ x, 0 < exp x) (stdDev : F) (h : Nat) : 0 < gaussTotal3 exp stdDev h := by
  unfold gaussTotal3
  have hne : (Finset.Icc (-(h : Int)) h).Nonempty := ⟨0, by simp⟩
  exact Finset.sum_pos (fun x _ => Finset.sum_pos (fun y _ =>
    Finset.sum_pos (fun z _ => hexp _) hne) hne) hne

theorem sum_map_div_const {F : Type} [Field F] (l : List F) (t : F) :
    (l.map (fun v => v / t)).sum = l.sum / t := by
  have h := List.sum_map_mul_right l (fun v => v) t⁻¹
  simp only [List.map_id_fun, id_eq] at h
  simpa [div_eq_mul_inv] using h

/-- The rank 2 mask in exact arithmetic: length, sign, sum and entries. -/
theorem createMask_two_exact {F : Type} [LinearOrderedField F] [FloorRing F] (exp : F → F)
    (hexp : ∀ x, 0 < exp x) (s : GaussianSmoothingFilter F) (hs : s.mRecreateMask = true)
    (h : Nat) (hm : 2 * h + 1 < 256) :
    (createMask (exactOps F exp) s 2 (2 * h + 1)).mMask.length = (2 * h + 1) ^ 2 ∧
    (∀ v ∈ (createMask (exactOps F exp) s 2 (2 * h + 1)).mMask, 0 ≤ v) ∧
    (createMask (exactOps F exp) s 2 (2 * h + 1)).mMask.sum = 1 ∧
    ∀ x y : Int, -(h : Int) ≤ x → x ≤ h → -(h : Int) ≤ y → y ≤ h →
      (createMask (exactOps F exp) s 2 (2 * h + 1)).mMask[
          (x + (h : Int) + (y + (h : Int)) * ((2 * h + 1 : Nat) : Int)).toNat]? =
        some (gaussWeight exp s.mStdDev (x ^ 2 + y ^ 2) / gaussTotal2 exp s.mStdDev h) := by
  have hT := maskTotal2_exact exp s.mStdDev h hm
  have hpos := gaussTotal2_pos exp hexp s.mStdDev h
  have hdiv : ∀ v t : F, (exactOps F exp).div v t = v / t := fun _ _ => rfl
  have hzero : (exactOps F exp).zero = 0 := rfl
  rw [createMask_mMask_two _ _ hs, hT]
  simp only [hdiv]
  refine ⟨?_, ?_, ?_, ?_⟩
  · rw [List.length_map, length_setWrites, List.length_replicate, pow_two]
  · intro v hv
    obtain ⟨u, hu, rfl⟩ := List.mem_map.1 hv
    apply div_nonneg _ hpos.le
    rcases mem_setWrites _ _ _ hu with h1 | ⟨w, hw, rfl⟩
    · rw [List.eq_of_mem_replicate h1, hzero]
    · obtain ⟨x, y, _, _, rfl⟩ := (mem_maskWrites2 _ _ h hm _).1 hw
      simp only [maskValue_exact]
      exact (hexp _).le
  · rw [sum_map_div_const, sum_setWrites_of_zero _ _ (nodup_maskWrites2 _ _ h hm)]
    · rw [← maskTotal_exact, hT, hzero, List.sum_replicate, smul_zero, zero_add]
      exact div_self hpos.ne'
    · intro w hw
      obtain ⟨x, y, hx, hy, rfl⟩ := (mem_maskWrites2 _ _ h hm _).1 hw
      rw [List.getElem?_replicate, if_pos (maskIndex2_bounds h x y hx.1 hx.2 hy.1 hy.2).2, hzero]
  · intro x y hx1 hx2 hy1 hy2
    rw [List.getElem?_map, maskWrites2_get _ _ h hm x y hx1 hx2 hy1 hy2, maskValue_exact]
    simp only [Option.map_some', pow_two]

/-- The rank 3 mask in exact arithmetic: length, sign, sum and entries. -/
theorem createMask_three_exact {F : Type} [LinearOrderedField F] [FloorRing F] (exp : F → F)
    (hexp : ∀ x, 0 < exp x) (s : GaussianSmoothingFilter F) (hs : s.mRecreateMask = true)
    (h : Nat) (hm : 2 * h + 1 < 256) :
    (createMask (exactOps F exp) s 3 (2 * h + 1)).mMask.length = (2 * h + 1) ^ 3 ∧
    (∀ v ∈ (createMask (exactOps F exp) s 3 (2 * h + 1)).mMask, 0 ≤ v) ∧
    (createMask (exactOps F exp) s 3 (2 * h + 1)).mMask.sum = 1 ∧
    ∀ x y z : Int, -(h : Int) ≤ x → x ≤ h → -(h : Int) ≤ y → y ≤ h → -(h : Int) ≤ z → z ≤ h →
      (createMask (exactOps F exp) s 3 (2 * h + 1)).mMask[
          (x + (h : Int) + (y + (h : Int)) * ((2 * h + 1 : Nat) : Int)
            + (z + (h : Int)) * ((2 * h + 1 : Nat) : Int) * ((2 * h + 1 : Nat) : Int)).toNat]? =
        some (gaussWeight exp s.mStdDev (x ^ 2 + y ^ 2 + z ^ 2) /
          gaussTotal3 exp s.mStdDev h) := by
  have hT := maskTotal3_exact exp s.mStdDev h hm
  have hpos := gaussTotal3_pos exp hexp s.mStdDev h
  have hdiv : ∀ v t : F, (exactOps F exp).div v t = v / t := fun _ _ => rfl
  have hzero : (exactOps F exp).zero = 0 := rfl
  rw [createMask_mMask_three _ _ hs, hT]
  simp only [hdiv]
  refine ⟨?_, ?_, ?_, ?_⟩
  · rw [List.length_map, length_setWrites, List.length_replicate]
    ring
  · intro v hv
    obtain ⟨u, hu, rfl⟩ := List.mem_map.1 hv
    apply div_nonneg _ hpos.le
    rcases mem_setWrites _ _ _ hu with h1 | ⟨w, hw, rfl⟩
    · rw [List.eq_of_mem_replicate h1, hzero]
    · obtain ⟨x, y, z, _, _, _, rfl⟩ := (mem_maskWrites3 _ _ h hm _).1 hw
      simp only [maskValue_exact]
      exact (hexp _).le
  · rw [sum_map_div_const, sum_setWrites_of_zero _ _ (nodup_maskWrites3 _ _ h hm)]
    · rw [← maskTotal_exact, hT, hzero, List.sum_replicate, smul_zero, zero_add]
      exact div_self hpos.ne'
    · intro w hw
      obtain ⟨x, y, z, hx, hy, hz, rfl⟩ := (mem_maskWrites3 _ _ h hm _).1 hw
      rw [List.getElem?_replicate,
        if_pos (maskIndex3_bounds h x y z hx.1 hx.2 hy.1 hy.2 hz.1 hz.2).2, hzero]
  · intro x y z hx1 hx2 hy1 hy2 hz1 hz2
    rw [List.getElem?_map, maskWrites3_get _ _ h hm x y z hx1 hx2 hy1 hy2 hz1 hz2,
      maskValue_exact]
    simp only [Option.map_some', pow_two]

/-- C9 (Mask symmetry).  For every arithmetic of `float`, every standard deviation, every odd
mask size `m = 2h+1` and every offset in `[-h, h]^r`, `r` in `{2, 3}`, the mask built by
`createMask` holds the same value at the linear index of `o` and at that of `-o`. -/
theorem createMask_symmetric {F : Type} (ops : FloatOps F) (s : GaussianSmoothingFilter F)
    (hs : s.mRecreateMask = true) (m h : Nat) (hmh : m = 2 * h + 1) (hm : m < 256) :
    (∀ x y : Int, -(h : Int) ≤ x → x ≤ h → -(h : Int) ≤ y → y ≤ h →
      ∃ v : F,
        (createMask ops s 2 m).mMask[(x + (h : Int) + (y + (h : Int)) * (m : Int)).toNat]? =
          some v ∧
        (createMask ops s 2 m).mMask[(-x + (h : Int) + (-y + (h : Int)) * (m : Int)).toNat]? =
          some v) ∧
    (∀ x y z : Int, -(h : Int) ≤ x → x ≤ h → -(h : Int) ≤ y → y ≤ h →
      -(h : Int) ≤ z → z ≤ h →
      ∃ v : F,
        (createMask ops s 3 m).mMask[(x + (h : Int) + (y + (h : Int)) * (m : Int)
            + (z + (h : Int)) * (m : Int) * (m : Int)).toNat]? = some v ∧
        (createMask ops s 3 m).mMask[(-x + (h : Int) + (-y + (h : Int)) * (m : Int)
            + (-z + (h : Int)) * (m : Int) * (m : Int)).toNat]? = some v) := by
  subst hmh
  constructor
  · intro x y hx1 hx2 hy1 hy2
    rw [createMask_mMask_two _ _ hs]
    simp only [List.getElem?_map]
    rw [maskWrites2_get _ _ h hm x y hx1 hx2 hy1 hy2,
      maskWrites2_get _ _ h hm (-x) (-y) (by omega) (by omega) (by omega) (by omega)]
    simp only [neg_mul_neg, Option.map_some']
    exact ⟨_, rfl, rfl⟩
  · intro x y z hx1 hx2 hy1 hy2 hz1 hz2
    rw [createMask_mMask_three _ _ hs]
    simp only [List.getElem?_map]
    rw [maskWrites3_get _ _ h hm x y z hx1 hx2 hy1 hy2 hz1 hz2,
      maskWrites3_get _ _ h hm (-x) (-y) (-z) (by omega) (by omega) (by omega) (by omega)
        (by omega) (by omega)]
    simp only [neg_mul_neg, Option.map_some']
    exact ⟨_, rfl, rfl⟩

theorem createMask_symmetric_witness :
    (3 : Nat) = 2 * 1 + 1 ∧ (3 : Nat) < 256 ∧
    ∃ v : ℚ,
      (createMask (exactOps ℚ id) (ctor (exactOps ℚ id)) 2 3).mMask[
        ((1 : Int) + ((1 : Nat) : Int) + ((-1 : Int) + ((1 : Nat) : Int)) * ((3 : Nat) : Int)).toNat]?
          = some v ∧
      (createMask (exactOps ℚ id) (ctor (exactOps ℚ id)) 2 3).mMask[
        (-(1 : Int) + ((1 : Nat) : Int) + (-(-1 : Int) + ((1 : Nat) : Int)) * ((3 : Nat) : Int)).toNat]?
          = some v :=
  ⟨rfl, by decide,
    (createMask_symmetric (exactOps ℚ id) (ctor (exactOps ℚ id)) rfl 3 1 rfl (by decide)).1
      1 (-1) (by decide) (by decide) (by decide) (by decide)⟩

/-! ## The setters and the effective mask size -/


theorem toChar_of_small (z : Int) (h1 : -128 ≤ z) (h2 : z ≤ 127) : toChar z = z := by
  unfold toChar; omega

/-- C7 (setMaskSize error handling).  For every state and every `m`: `setMaskSize(m)` throws
exactly when `m <= 0` or `m` is even; when it throws, the state is unchanged, and a later call
with a positive odd value succeeds and stores that value; when it succeeds, the stored mask
size is `m`, the mask is flagged stale, and sigma and the mask array are untouched.  In
particular `setMaskSize(4)` throws and leaves the state unchanged, and `setMaskSize(5)` then
succeeds. -/
theorem setMaskSize_error_handling {F : Type} (s : GaussianSmoothingFilter F) (m : Nat) :
    ((setMaskSize s m).1 ≠ none ↔ (m ≤ 0 ∨ m % 2 = 0)) ∧
    ((setMaskSize s m).1 ≠ none → (setMaskSize s m).2 = s) ∧
    ((setMaskSize s m).1 = none →
      (setMaskSize s m).2.mMaskSize = (m : Int) ∧ (setMaskSize s m).2.mRecreateMask = true ∧
      (setMaskSize s m).2.mStdDev = s.mStdDev ∧ (setMaskSize s m).2.mMask = s.mMask) ∧
    (∀ m2 : Nat, (setMaskSize s m).1 ≠ none → 0 < m2 → m2 % 2 = 1 →
      (setMaskSize (setMaskSize s m).2 m2).1 = none ∧
      (setMaskSize (setMaskSize s m).2 m2).2.mMaskSize = (m2 : Int)) ∧
    ((setMaskSize s 4).1 = some Exception.maskSizeNotOdd ∧ (setMaskSize s 4).2 = s ∧
      (setMaskSize (setMaskSize s 4).2 5).1 = none ∧
      (setMaskSize (setMaskSize s 4).2 5).2.mMaskSize = 5) := by
  refine ⟨?_, ?_, ?_, ?_, ?_⟩
  · unfold setMaskSize
    split_ifs with h1 h2
    · simp; omega
    · simp; omega
    · simp; omega
  · unfold setMaskSize
    split_ifs with h1 h2 <;> simp
  · unfold setMaskSize
    split_ifs with h1 h2 <;> simp
  · intro m2 hfail hpos hodd
    have hs : (setMaskSize s m).2 = s := by
      revert hfail
      unfold setMaskSize
      split_ifs with h1 h2 <;> simp
    rw [hs]
    unfold setMaskSize
    have h1 : ¬ m2 ≤ 0 := by omega
    simp [h1, hodd]
  · simp [setMaskSize]

/-- C5 (Default-size law), at `sigma = 50`: `setStandardDeviation(50)` is accepted and the mask
size stays unset, but the size `execute` passes on is `201`, not `min(19, 2*ceil(2*50)+1) = 19`:
the value `201` does not fit the `char` variable, which then holds `-55`, and the clamp
`maskSize > 19` does not apply to it. -/
theorem execute_default_size_sigma_fifty :
    ∀ exp : ℚ → ℚ,
      (setStandardDeviation (exactOps ℚ exp) (ctor (exactOps ℚ exp)) 50).1 = none ∧
      (setStandardDeviation (exactOps ℚ exp) (ctor (exactOps ℚ exp)) 50).2.mMaskSize = -1 ∧
      effectiveMaskSize (exactOps ℚ exp)
        (setStandardDeviation (exactOps ℚ exp) (ctor (exactOps ℚ exp)) 50).2 = 201 ∧
      min (19 : Int) (2 * ⌈(2 : ℚ) * 50⌉ + 1) = 19 := by
  intro exp
  have hc : ⌈(100 : ℚ)⌉ = 100 := by exact_mod_cast (Int.ceil_natCast 100 : ⌈((100 : ℕ) : ℚ)⌉ = _)
  have hf : ⌊(201 : ℚ)⌋ = 201 := by exact_mod_cast (Int.floor_natCast 201 : ⌊((201 : ℕ) : ℚ)⌋ = _)
  refine ⟨?_, ?_, ?_, ?_⟩
  · norm_num [setStandardDeviation, exactOps]
  · norm_num [setStandardDeviation, exactOps, ctor]
  · simp [setStandardDeviation, exactOps, ctor, effectiveMaskSize, executeMaskSize, executeMaskSizeWith]
    norm_num [hc, hf, toChar, toUChar]
    rfl
  · norm_num [hc]

/-- C6 (counterexample): `setMaskSize(1)` is accepted, and the mask size `execute` then uses
is `1`, which is below `3`. -/
theorem setMaskSize_one_effective :
    (setMaskSize (ctor (exactOps ℚ id)) 1).1 = none ∧
    effectiveMaskSize (exactOps ℚ id) (setMaskSize (ctor (exactOps ℚ id)) 1).2 = 1 ∧
    ¬ (3 ≤ effectiveMaskSize (exactOps ℚ id) (setMaskSize (ctor (exactOps ℚ id)) 1).2) := by
  have h : effectiveMaskSize (exactOps ℚ id) (setMaskSize (ctor (exactOps ℚ id)) 1).2 = 1 := by
    simp [setMaskSize, effectiveMaskSize, executeMaskSize, executeMaskSizeWith, toChar, toUChar]
  refine ⟨by simp [setMaskSize], h, ?_⟩
  rw [h]; decide

/-- C6 (Effective mask size for a user-set size, amended).  For every arithmetic, every state
and every odd `m` with `1 <= m <= 127`: `setMaskSize(m)` succeeds, and the mask size that
`execute` then passes to `createMask` and to the executor is odd, lies in `[1, 19]` and equals
`min(m, 19)`. -/
theorem effectiveMaskSize_of_setMaskSize {F : Type} (ops : FloatOps F)
    (s : GaussianSmoothingFilter F) (m : Nat) (hodd : m % 2 = 1) (hle : m ≤ 127) :
    (setMaskSize s m).1 = none ∧
    effectiveMaskSize ops (setMaskSize s m).2 % 2 = 1 ∧
    1 ≤ effectiveMaskSize ops (setMaskSize s m).2 ∧
    effectiveMaskSize ops (setMaskSize s m).2 ≤ 19 ∧
    effectiveMaskSize ops (setMaskSize s m).2 = min m 19 := by
  have h1 : ¬ m ≤ 0 := by omega
  have hs : setMaskSize s m =
      (none, { s with mMaskSize := (m : Int), mIsModified := true, mRecreateMask := true }) := by
    simp [setMaskSize, h1, hodd]
  have hc : toChar (m : Int) = (m : Int) := toChar_of_small _ (by omega) (by omega)
  have he : effectiveMaskSize ops (setMaskSize s m).2 = min m 19 := by
    rw [hs]
    simp only [effectiveMaskSize, executeMaskSize, executeMaskSizeWith, hc]
    have h2 : ¬ ((m : Int) ≤ 0) := by omega
    rw [if_neg h2]
    unfold toUChar
    split_ifs with h3
    · omega
    · omega
  rw [he, hs]
  refine ⟨rfl, ?_, ?_, ?_, rfl⟩ <;> omega

theorem effectiveMaskSize_of_setMaskSize_witness :
    5 % 2 = 1 ∧ 5 ≤ 127 ∧
    effectiveMaskSize (exactOps ℚ id) (setMaskSize (ctor (exactOps ℚ id)) 5).2 = min 5 19 :=
  ⟨by decide, by decide,
    (effectiveMaskSize_of_setMaskSize (exactOps ℚ id) (ctor (exactOps ℚ id)) 5
      (by decide) (by decide)).2.2.2.2⟩

/-! ## Offsets into the pixel buffer -/

theorem usub_eq (a b : Nat) (ha : a < U32) (hb : b ≤ a) : usub a b = a - b := by
  unfold usub U32 at *
  omega

theorem usub_wrap (a b : Nat) (hb : b < U32) (hab : a < b) : usub a b = a + U32 - b := by
  unfold usub U32 at *
  omega

theorem uaddInt_eq (x : Nat) (a : Int) (h0 : 0 ≤ (x : Int) + a) (h1 : (x : Int) + a < (U32 : Int)) :
    uaddInt x a = ((x : Int) + a).toNat := by
  unfold uaddInt
  rw [Int.emod_eq_of_lt h0 h1]

theorem offset2_mod (c w x y : Nat) : offset2 c w x y = (x * c + y * c * w) % U32 := by
  unfold offset2 uadd umul
  have h1 : (x * c) % U32 ≡ x * c [MOD U32] := Nat.mod_modEq _ _
  have h2 : ((y * c) % U32 * w) % U32 ≡ y * c * w [MOD U32] :=
    (Nat.mod_modEq _ _).trans ((Nat.mod_modEq _ _).mul_right w)
  exact h1.add h2

theorem offset3_mod (c w h x y z : Nat) :
    offset3 c w h x y z = (x * c + y * c * w + z * c * w * h) % U32 := by
  unfold offset3 uadd umul
  have h1 : (x * c) % U32 ≡ x * c [MOD U32] := Nat.mod_modEq _ _
  have h2 : ((y * c) % U32 * w) % U32 ≡ y * c * w [MOD U32] :=
    (Nat.mod_modEq _ _).trans ((Nat.mod_modEq _ _).mul_right w)
  have h3 : (((z * c) % U32 * w) % U32 * h) % U32 ≡ z * c * w * h [MOD U32] :=
    (Nat.mod_modEq _ _).trans
      (((Nat.mod_modEq _ _).trans ((Nat.mod_modEq _ _).mul_right w)).mul_right h)
  have h4 : ((x * c) % U32 + ((y * c) % U32 * w) % U32) % U32 ≡ x * c + y * c * w [MOD U32] :=
    (Nat.mod_modEq _ _).trans (h1.add h2)
  exact h4.add h3

theorem index2_lt (c w h x y : Nat) (hc : 0 < c) (hx : x < w) (hy : y < h) :
    x * c + y * c * w < w * h * c := by
  have h1 : (x + 1) * c ≤ w * c := Nat.mul_le_mul_right c hx
  have h2 : (y + 1) * (c * w) ≤ h * (c * w) := Nat.mul_le_mul_right (c * w) hy
  nlinarith

theorem index3_lt (c w h d x y z : Nat) (hc : 0 < c) (hx : x < w) (hy : y < h) (hz : z < d) :
    x * c + y * c * w + z * c * w * h < w * h * d * c := by
  have h1 : (x + 1) * c ≤ w * c := Nat.mul_le_mul_right c hx
  have h2 : (y + 1) * (c * w) ≤ h * (c * w) := Nat.mul_le_mul_right (c * w) hy
  have h3 : (z + 1) * (c * w * h) ≤ d * (c * w * h) := Nat.mul_le_mul_right (c * w * h) hz
  nlinarith

theorem nat_radix_inj {m a b c d : Nat} (ham : a < m) (hcm : c < m)
    (h : a + b * m = c + d * m) : a = c ∧ b = d := by
  have h1 := radix_inj (m := (m : Int)) (a := a) (b := b) (c := c) (d := d) (by omega) (by omega)
    (by omega) (by omega) (by exact_mod_cast h)
  omega

theorem index2_inj (c w x y u v : Nat) (hc : 0 < c) (hx : x < w) (hu : u < w)
    (h : x * c + y * c * w = u * c + v * c * w) : x = u ∧ y = v := by
  have h1 : (x + y * w) * c = (u + v * w) * c := by linarith
  have h2 : x + y * w = u + v * w := Nat.eq_of_mul_eq_mul_right hc h1
  exact nat_radix_inj hx hu h2

theorem index3_inj_nat (c w h x y z u v t : Nat) (hc : 0 < c) (hx : x < w) (hu : u < w)
    (hy : y < h) (hv : v < h)
    (heq : x * c + y * c * w + z * c * w * h = u * c + v * c * w + t * c * w * h) :
    x = u ∧ y = v ∧ z = t := by
  have h1 : (x + (y + z * h) * w) * c = (u + (v + t * h) * w) * c := by linarith
  have h2 : x + (y + z * h) * w = u + (v + t * h) * w := Nat.eq_of_mul_eq_mul_right hc h1
  obtain ⟨e1, e2⟩ := nat_radix_inj hx hu h2
  obtain ⟨e3, e4⟩ := nat_radix_inj hy hv e2
  exact ⟨e1, e3, e4⟩

/-! ## The host executor, rank 3 -/

theorem halfSizeOf_lt (m : Nat) : halfSizeOf m < 256 := by
  unfold halfSizeOf toUChar
  omega

theorem axis_border (x w h : Nat) (hx : x < w) (hw : w < U32) (hh : h < 256) :
    (x < h ∨ x ≥ usub w h) ↔ (x < h ∨ w ≤ x + h) := by
  unfold usub U32 at *
  omega

theorem mem_grid3 {d h w : Nat} {p : Nat × Nat × Nat} :
    p ∈ grid3 d h w ↔ p.1 < d ∧ p.2.1 < h ∧ p.2.2 < w := by
  obtain ⟨z, y, x⟩ := p
  unfold grid3
  simp only [List.mem_flatMap, List.mem_map, List.mem_range'_1, Prod.mk.injEq]
  constructor
  · rintro ⟨a, ha, b, hb, c, hc, rfl, rfl, rfl⟩
    omega
  · rintro ⟨h1, h2, h3⟩
    exact ⟨z, by omega, y, by omega, x, by omega, rfl, rfl, rfl⟩

theorem executeAlgorithmOnHost_three_eq {F T D : Type} (ops : HostOps F T D) (input : Image T)
    (out0 : Nat → T) (mask : Nat → F) (m : Nat) (hd : input.dimensions = 3) :
    executeAlgorithmOnHost ops input out0 mask m =
      (grid3 input.depth input.height input.width).foldl
        (fun st p => pixel3 ops input mask m p.2.2 p.2.1 p.1 st) ⟨out0, [], [], []⟩ := by
  unfold executeAlgorithmOnHost grid3 forLoop
  simp only [hd, if_true, Nat.sub_zero]
  rw [foldl_flatMap_eq]
  simp only [foldl_flatMap_eq, List.foldl_map]

theorem convolveAt3_sum {F T D : Type} (ops : HostOps F T D) (input : Image T) (mask : Nat → F)
    (m h : Nat) (hmh : halfSizeOf m = h) (hd : input.dimensions = 3) (hwf : input.WF)
    (x y z : Nat) (hx1 : h ≤ x) (hx2 : x + h < input.width) (hy1 : h ≤ y)
    (hy2 : y + h < input.height) (hz1 : h ≤ z) (hz2 : z + h < input.depth) (st : HostState T) :
    (convolveAt3 ops input mask m x y z st).sum = convolve3 ops input mask m h x y z := by
  have hsz : input.width * input.height * input.depth * input.nrOfComponents < U32 := by
    have := hwf.size_lt
    simpa [Image.size, hd] using this
  have hW := hwf.width_lt
  have hH := hwf.height_lt
  have hD := hwf.depth_lt
  unfold convolveAt3 convolve3
  simp only [hmh]
  rw [forInt3_eq_foldl]
  refine foldl_proj SumState.sum _ _ _ ?_ _
  intro p hp acc
  obtain ⟨⟨hc1, hc2⟩, ⟨hb1, hb2⟩, ⟨ha1, ha2⟩⟩ := mem_offsets3.1 hp
  have hU : (U32 : Int) = 4294967296 := rfl
  have hWi : (input.width : Int) < 4294967296 := by unfold U32 at hW; omega
  have hHi : (input.height : Int) < 4294967296 := by unfold U32 at hH; omega
  have hDi : (input.depth : Int) < 4294967296 := by unfold U32 at hD; omega
  have e1 : uaddInt x p.2.2 = ((x : Int) + p.2.2).toNat :=
    uaddInt_eq _ _ (by omega) (by rw [hU]; omega)
  have e2 : uaddInt y p.2.1 = ((y : Int) + p.2.1).toNat :=
    uaddInt_eq _ _ (by omega) (by rw [hU]; omega)
  have e3 : uaddInt z p.1 = ((z : Int) + p.1).toNat :=
    uaddInt_eq _ _ (by omega) (by rw [hU]; omega)
  have hlt := index3_lt input.nrOfComponents input.width input.height input.depth
    ((x : Int) + p.2.2).toNat ((y : Int) + p.2.1).toNat ((z : Int) + p.1).toNat
    hwf.comps_pos (by omega) (by omega) (by omega)
  simp only [accumulate]
  rw [offset3_mod, e1, e2, e3, Nat.mod_eq_of_lt (lt_trans hlt hsz)]

theorem pixel3_outputData {F T D : Type} (ops : HostOps F T D) (input : Image T)
    (mask : Nat → F) (m h : Nat) (hmh : halfSizeOf m = h) (hd : input.dimensions = 3)
    (hwf : input.WF) (x y z : Nat) (hx : x < input.width) (hy : y < input.height)
    (hz : z < input.depth) (st : HostState T) :
    (pixel3 ops input mask m x y z st).outputData =
      Function.update st.outputData
        (x * input.nrOfComponents + y * input.nrOfComponents * input.width
          + z * input.nrOfComponents * input.width * input.height)
        (specValue3 ops input mask m h x y z) := by
  have hsz : input.width * input.height * input.depth * input.nrOfComponents < U32 := by
    have := hwf.size_lt
    simpa [Image.size, hd] using this
  have hh : h < 256 := hmh ▸ halfSizeOf_lt m
  have hoff : offset3 input.nrOfComponents input.width input.height x y z =
      x * input.nrOfComponents + y * input.nrOfComponents * input.width
          + z * input.nrOfComponents * input.width * input.height := by
    rw [offset3_mod, Nat.mod_eq_of_lt (lt_trans (index3_lt _ _ _ _ x y z hwf.comps_pos hx hy hz) hsz)]
  have hW := hwf.width_lt
  have hH := hwf.height_lt
  have hD := hwf.depth_lt
  have hcond : (x < h ∨ x ≥ usub input.width h ∨ y < h ∨ y ≥ usub input.height h ∨
        z < h ∨ z ≥ usub input.depth h) ↔
      (x < h ∨ input.width ≤ x + h ∨ y < h ∨ input.height ≤ y + h ∨
        z < h ∨ input.depth ≤ z + h) := by
    unfold usub U32 at *
    omega
  unfold pixel3 specValue3
  simp only [hmh, hoff]
  by_cases hb : x < h ∨ input.width ≤ x + h ∨ y < h ∨ input.height ≤ y + h ∨
      z < h ∨ input.depth ≤ z + h
  · rw [if_pos (hcond.2 hb), if_pos hb]
    rfl
  · rw [if_neg (fun hc => hb (hcond.1 hc)), if_neg hb]
    simp only [storeSum]
    rw [convolveAt3_sum ops input mask m h hmh hd hwf x y z (by omega) (by omega) (by omega)
      (by omega) (by omega) (by omega)]

/-- The output buffer after a rank 3 run: every pixel holds the value the specification gives
it, and every offset that is not component 0 of a pixel keeps its previous content. -/
theorem executeAlgorithmOnHost_three_output {F T D : Type} (ops : HostOps F T D)
    (input : Image T) (out0 : Nat → T) (mask : Nat → F) (m h : Nat) (hmh : halfSizeOf m = h)
    (hd : input.dimensions = 3) (hwf : input.WF) :
    (∀ x y z : Nat, x < input.width → y < input.height → z < input.depth →
      (executeAlgorithmOnHost ops input out0 mask m).outputData
        (x * input.nrOfComponents + y * input.nrOfComponents * input.width
          + z * input.nrOfComponents * input.width * input.height) =
        specValue3 ops input mask m h x y z) ∧
    (∀ i : Nat, (∀ x y z : Nat, x < input.width → y < input.height → z < input.depth →
        i ≠ x * input.nrOfComponents + y * input.nrOfComponents * input.width
          + z * input.nrOfComponents * input.width * input.height) →
      (executeAlgorithmOnHost ops input out0 mask m).outputData i = out0 i) := by
  have hproj := foldl_proj HostState.outputData
    (fun st (p : Nat × Nat × Nat) => pixel3 ops input mask m p.2.2 p.2.1 p.1 st)
    (fun t (p : Nat × Nat × Nat) => Function.update t
      (p.2.2 * input.nrOfComponents + p.2.1 * input.nrOfComponents * input.width
        + p.1 * input.nrOfComponents * input.width * input.height)
      (specValue3 ops input mask m h p.2.2 p.2.1 p.1))
    (grid3 input.depth input.height input.width)
    (fun p hp st => by
      obtain ⟨h1, h2, h3⟩ := mem_grid3.1 hp
      exact pixel3_outputData ops input mask m h hmh hd hwf p.2.2 p.2.1 p.1 h3 h2 h1 st)
    ⟨out0, [], [], []⟩
  have hflat : (executeAlgorithmOnHost ops input out0 mask m).outputData =
      applyWrites ((grid3 input.depth input.height input.width).map
        (fun p => (p.2.2 * input.nrOfComponents + p.2.1 * input.nrOfComponents * input.width
          + p.1 * input.nrOfComponents * input.width * input.height,
          specValue3 ops input mask m h p.2.2 p.2.1 p.1))) out0 := by
    rw [executeAlgorithmOnHost_three_eq ops input out0 mask m hd, hproj]
    unfold applyWrites
    rw [List.foldl_map]
  rw [hflat]
  constructor
  · intro x y z hx hy hz
    apply applyWrites_of_mem
    · exact List.mem_map.2 ⟨(z, y, x), mem_grid3.2 ⟨hz, hy, hx⟩, rfl⟩
    · intro w hw hidx
      obtain ⟨q, hq, rfl⟩ := List.mem_map.1 hw
      obtain ⟨h1, h2, h3⟩ := mem_grid3.1 hq
      simp only at hidx ⊢
      obtain ⟨e1, e2, e3⟩ := index3_inj_nat _ _ _ _ _ _ _ _ _ hwf.comps_pos h3 hx h2 hy hidx
      rw [e1, e2, e3]
  · intro i hi
    apply applyWrites_of_forall_ne
    intro w hw
    obtain ⟨q, hq, rfl⟩ := List.mem_map.1 hw
    obtain ⟨h1, h2, h3⟩ := mem_grid3.1 hq
    exact (hi q.2.2 q.2.1 q.1 h3 h2 h1).symm

/-! ## The host executor, rank 2 -/

theorem mem_grid2 {h hgt w : Nat} {p : Nat × Nat} :
    p ∈ grid2 h hgt w ↔
      (h ≤ p.1 ∧ p.1 < h + (usub hgt h - h)) ∧ (h ≤ p.2 ∧ p.2 < h + (usub w h - h)) := by
  obtain ⟨y, x⟩ := p
  unfold grid2
  simp only [List.mem_flatMap, List.mem_map, List.mem_range'_1, Prod.mk.injEq]
  constructor
  · rintro ⟨a, ha, b, hb, rfl, rfl⟩
    exact ⟨ha, hb⟩
  · rintro ⟨h1, h2⟩
    exact ⟨y, h1, x, h2, rfl, rfl⟩

theorem mem_grid2_of_le {h hgt w : Nat} (hw : w < U32) (hg : hgt < U32)
    (hhw : h ≤ w) (hhg : h ≤ hgt) {p : Nat × Nat} :
    p ∈ grid2 h hgt w ↔ (h ≤ p.1 ∧ p.1 + h < hgt) ∧ (h ≤ p.2 ∧ p.2 + h < w) := by
  rw [mem_grid2, usub_eq hgt h hg hhg, usub_eq w h hw hhw]
  omega

theorem executeAlgorithmOnHost_two_eq {F T D : Type} (ops : HostOps F T D) (input : Image T)
    (out0 : Nat → T) (mask : Nat → F) (m : Nat) (hd : input.dimensions ≠ 3) :
    executeAlgorithmOnHost ops input out0 mask m =
      (grid2 (halfSizeOf m) input.height input.width).foldl
        (fun st p => pixel2 ops input mask m p.2 p.1 st) ⟨out0, [], [], []⟩ := by
  unfold executeAlgorithmOnHost grid2 forLoop
  simp only [hd, if_false]
  rw [foldl_flatMap_eq]
  simp only [List.foldl_map]

theorem convolveAt2_sum {F T D : Type} (ops : HostOps F T D) (input : Image T) (mask : Nat → F)
    (m h : Nat) (hmh : halfSizeOf m = h) (hd : input.dimensions ≠ 3) (hwf : input.WF)
    (x y : Nat) (hx1 : h ≤ x) (hx2 : x + h < input.width) (hy1 : h ≤ y)
    (hy2 : y + h < input.height) (st : HostState T) :
    (convolveAt2 ops input mask m x y st).sum = convolve2 ops input mask m h x y := by
  have hsz : input.width * input.height * input.nrOfComponents < U32 := by
    have := hwf.size_lt
    simpa [Image.size, hd] using this
  have hW := hwf.width_lt
  have hH := hwf.height_lt
  unfold convolveAt2 convolve2
  simp only [hmh]
  rw [forInt2_eq_foldl]
  refine foldl_proj SumState.sum _ _ _ ?_ _
  intro p hp acc
  obtain ⟨⟨hb1, hb2⟩, ⟨ha1, ha2⟩⟩ := mem_offsets2.1 hp
  have hU : (U32 : Int) = 4294967296 := rfl
  have hWi : (input.width : Int) < 4294967296 := by unfold U32 at hW; omega
  have hHi : (input.height : Int) < 4294967296 := by unfold U32 at hH; omega
  have e1 : uaddInt x p.2 = ((x : Int) + p.2).toNat :=
    uaddInt_eq _ _ (by omega) (by rw [hU]; omega)
  have e2 : uaddInt y p.1 = ((y : Int) + p.1).toNat :=
    uaddInt_eq _ _ (by omega) (by rw [hU]; omega)
  have hlt := index2_lt input.nrOfComponents input.width input.height
    ((x : Int) + p.2).toNat ((y : Int) + p.1).toNat hwf.comps_pos (by omega) (by omega)
  simp only [accumulate]
  rw [offset2_mod, e1, e2, Nat.mod_eq_of_lt (lt_trans hlt hsz)]

theorem pixel2_outputData {F T D : Type} (ops : HostOps F T D) (input : Image T)
    (mask : Nat → F) (m h : Nat) (hmh : halfSizeOf m = h) (hd : input.dimensions ≠ 3)
    (hwf : input.WF) (x y : Nat) (hx1 : h ≤ x) (hx2 : x + h < input.width) (hy1 : h ≤ y)
    (hy2 : y + h < input.height) (st : HostState T) :
    (pixel2 ops input mask m x y st).outputData =
      Function.update st.outputData
        (x * input.nrOfComponents + y * input.nrOfComponents * input.width)
        (ops.cast (convolve2 ops input mask m h x y)) := by
  have hsz : input.width * input.height * input.nrOfComponents < U32 := by
    have := hwf.size_lt
    simpa [Image.size, hd] using this
  have hh : h < 256 := hmh ▸ halfSizeOf_lt m
  have hoff : offset2 input.nrOfComponents input.width x y =
      x * input.nrOfComponents + y * input.nrOfComponents * input.width := by
    rw [offset2_mod, Nat.mod_eq_of_lt (lt_trans
      (index2_lt _ _ _ x y hwf.comps_pos (by omega) (by omega)) hsz)]
  have hW := hwf.width_lt
  have hH := hwf.height_lt
  have hcond : ¬ (x < h ∨ x ≥ usub input.width h ∨ y < h ∨ y ≥ usub input.height h) := by
    unfold usub U32 at *
    omega
  unfold pixel2
  simp only [hmh, hoff]
  rw [if_neg hcond]
  simp only [storeSum]
  rw [convolveAt2_sum ops input mask m h hmh hd hwf x y hx1 hx2 hy1 hy2]

/-- The output buffer after a rank 2 run on an image at least `h` wide and high: every
interior pixel holds the converted convolution, and every other offset (the border pixels
among them) keeps its previous content. -/
theorem executeAlgorithmOnHost_two_output {F T D : Type} (ops : HostOps F T D)
    (input : Image T) (out0 : Nat → T) (mask : Nat → F) (m h : Nat) (hmh : halfSizeOf m = h)
    (hd : input.dimensions ≠ 3) (hwf : input.WF) (hhw : h ≤ input.width)
    (hhg : h ≤ input.height) :
    (∀ x y : Nat, h ≤ x → x + h < input.width → h ≤ y → y + h < input.height →
      (executeAlgorithmOnHost ops input out0 mask m).outputData
        (x * input.nrOfComponents + y * input.nrOfComponents * input.width) =
        ops.cast (convolve2 ops input mask m h x y)) ∧
    (∀ i : Nat, (∀ x y : Nat, h ≤ x → x + h < input.width → h ≤ y → y + h < input.height →
        i ≠ x * input.nrOfComponents + y * input.nrOfComponents * input.width) →
      (executeAlgorithmOnHost ops input out0 mask m).outputData i = out0 i) := by
  have hmem : ∀ p : Nat × Nat, p ∈ grid2 h input.height input.width ↔
      (h ≤ p.1 ∧ p.1 + h < input.height) ∧ (h ≤ p.2 ∧ p.2 + h < input.width) :=
    fun p => mem_grid2_of_le hwf.width_lt hwf.height_lt hhw hhg
  have hproj := foldl_proj HostState.outputData
    (fun st (p : Nat × Nat) => pixel2 ops input mask m p.2 p.1 st)
    (fun t (p : Nat × Nat) => Function.update t
      (p.2 * input.nrOfComponents + p.1 * input.nrOfComponents * input.width)
      (ops.cast (convolve2 ops input mask m h p.2 p.1)))
    (grid2 h input.height input.width)
    (fun p hp st => by
      obtain ⟨⟨h1, h2⟩, ⟨h3, h4⟩⟩ := (hmem p).1 hp
      exact pixel2_outputData ops input mask m h hmh hd hwf p.2 p.1 h3 h4 h1 h2 st)
    ⟨out0, [], [], []⟩
  have hflat : (executeAlgorithmOnHost ops input out0 mask m).outputData =
      applyWrites ((grid2 h input.height input.width).map
        (fun p => (p.2 * input.nrOfComponents + p.1 * input.nrOfComponents * input.width,
          ops.cast (convolve2 ops input mask m h p.2 p.1)))) out0 := by
    rw [executeAlgorithmOnHost_two_eq ops input out0 mask m hd, hmh, hproj]
    unfold applyWrites
    rw [List.foldl_map]
  rw [hflat]
  constructor
  · intro x y hx1 hx2 hy1 hy2
    apply applyWrites_of_mem
    · exact List.mem_map.2 ⟨(y, x), (hmem (y, x)).2 ⟨⟨hy1, hy2⟩, ⟨hx1, hx2⟩⟩, rfl⟩
    · intro w hw hidx
      obtain ⟨q, hq, rfl⟩ := List.mem_map.1 hw
      obtain ⟨⟨h1, h2⟩, ⟨h3, h4⟩⟩ := (hmem q).1 hq
      simp only at hidx ⊢
      obtain ⟨e1, e2⟩ := index2_inj _ _ _ _ _ _ hwf.comps_pos (by omega) (by omega) hidx
      rw [e1, e2]
  · intro i hi
    apply applyWrites_of_forall_ne
    intro w hw
    obtain ⟨q, hq, rfl⟩ := List.mem_map.1 hw
    obtain ⟨⟨h1, h2⟩, ⟨h3, h4⟩⟩ := (hmem q).1 hq
    exact (hi q.2 q.1 h3 h4 h1 h2).symm

/-! ## Claims on the output of the host executor -/

/-- C2 (Host executor, interior pixels).  For every image of rank 2 or 3 with at least one
component, every odd mask size `m = 2h+1` and every pixel whose distance to every boundary is
at least `h`, component 0 of the output pixel is the conversion to the element type of the sum,
over the offsets `o` of `[-h, h]^rank`, of `mask[o + h]` (row-major, stride `m`) times
component 0 of the input at `p + o`, the sum being formed in the accumulator type. -/
theorem executeAlgorithmOnHost_interior {F T D : Type} (ops : HostOps F T D) (input : Image T)
    (out0 : Nat → T) (mask : Nat → F) (m h : Nat) (hmh : m = 2 * h + 1) (hm : m < 256)
    (hwf : input.WF) :
    (input.dimensions = 3 → ∀ x y z : Nat,
      h ≤ x → x + h < input.width → h ≤ y → y + h < input.height →
      h ≤ z → z + h < input.depth →
      (executeAlgorithmOnHost ops input out0 mask m).outputData
        (x * input.nrOfComponents + y * input.nrOfComponents * input.width
          + z * input.nrOfComponents * input.width * input.height) =
        ops.cast (convolve3 ops input mask m h x y z)) ∧
    (input.dimensions = 2 → ∀ x y : Nat,
      h ≤ x → x + h < input.width → h ≤ y → y + h < input.height →
      (executeAlgorithmOnHost ops input out0 mask m).outputData
        (x * input.nrOfComponents + y * input.nrOfComponents * input.width) =
        ops.cast (convolve2 ops input mask m h x y)) := by
  have hhalf : halfSizeOf m = h := by
    subst hmh
    exact halfSizeOf_odd h hm
  constructor
  · intro hd x y z hx1 hx2 hy1 hy2 hz1 hz2
    rw [(executeAlgorithmOnHost_three_output ops input out0 mask m h hhalf hd hwf).1 x y z
      (by omega) (by omega) (by omega)]
    unfold specValue3
    rw [if_neg (by omega)]
  · intro hd x y hx1 hx2 hy1 hy2
    exact (executeAlgorithmOnHost_two_output ops input out0 mask m h hhalf (by omega) hwf
      (by omega) (by omega)).1 x y hx1 hx2 hy1 hy2

theorem rampImage5x5_wf : rampImage5x5.WF :=
  ⟨by decide, by decide, by decide, by decide, by decide⟩

theorem executeAlgorithmOnHost_interior_witness :
    (3 : Nat) = 2 * 1 + 1 ∧ (3 : Nat) < 256 ∧ rampImage5x5.WF ∧
    (executeAlgorithmOnHost (exactHostOps ℚ) rampImage5x5 (fun _ => 0) (fun _ => 1 / 9) 3).outputData
        (2 * rampImage5x5.nrOfComponents + 2 * rampImage5x5.nrOfComponents * rampImage5x5.width) =
      (exactHostOps ℚ).cast (convolve2 (exactHostOps ℚ) rampImage5x5 (fun _ => 1 / 9) 3 1 2 2) :=
  ⟨rfl, by decide, rampImage5x5_wf,
    (executeAlgorithmOnHost_interior (exactHostOps ℚ) rampImage5x5 (fun _ => 0)
      (fun _ => 1 / 9) 3 1 rfl (by decide) rampImage5x5_wf).2 rfl 2 2
      (by decide) (by decide) (by decide) (by decide)⟩

/-! ## Border pixels -/

/-- C1 (Host executor, border copy), rank 2 part, at a concrete input: a 3×3 image with one
component, mask size 3 and an output buffer filled with `99`.  The only pixel the rank 2 loops
visit is `(1, 1)` (offset 4); the border pixel `(0, 0)` keeps the previous content `99` of the
output buffer although the input holds `0` there. -/
theorem executeAlgorithmOnHost_two_border_kept :
    rampImage3x3.dimensions = 2 ∧ halfSizeOf 3 = 1 ∧
    rampImage3x3.data 0 = 0 ∧
    (executeAlgorithmOnHost (exactHostOps ℚ) rampImage3x3 (fun _ => 99) (fun _ => 0) 3).outputData 0
      = 99 ∧
    (executeAlgorithmOnHost (exactHostOps ℚ) rampImage3x3 (fun _ => 99) (fun _ => 0) 3).outputWrites
      = [4] := by
  refine ⟨rfl, by decide, rfl, by decide, by decide⟩

/-- The rank 3 part of C1 holds: after a rank 3 run, component 0 of every pixel within `h` of a
boundary equals component 0 of the input pixel, whatever the output buffer held. -/
theorem executeAlgorithmOnHost_three_border {F T D : Type} (ops : HostOps F T D)
    (input : Image T) (out0 : Nat → T) (mask : Nat → F) (m h : Nat) (hmh : m = 2 * h + 1)
    (hm : m < 256) (hd : input.dimensions = 3) (hwf : input.WF) (x y z : Nat)
    (hx : x < input.width) (hy : y < input.height) (hz : z < input.depth)
    (hb : x < h ∨ input.width ≤ x + h ∨ y < h ∨ input.height ≤ y + h ∨
      z < h ∨ input.depth ≤ z + h) :
    (executeAlgorithmOnHost ops input out0 mask m).outputData
        (x * input.nrOfComponents + y * input.nrOfComponents * input.width
          + z * input.nrOfComponents * input.width * input.height) =
      input.data (x * input.nrOfComponents + y * input.nrOfComponents * input.width
          + z * input.nrOfComponents * input.width * input.height) := by
  have hhalf : halfSizeOf m = h := by
    subst hmh
    exact halfSizeOf_odd h hm
  rw [(executeAlgorithmOnHost_three_output ops input out0 mask m h hhalf hd hwf).1 x y z hx hy hz]
  unfold specValue3
  rw [if_pos hb]

/-- After a rank 2 run on an image at least `h` wide and high, no border pixel has been
written: it holds what the output buffer held before the call. -/
theorem executeAlgorithmOnHost_two_border {F T D : Type} (ops : HostOps F T D)
    (input : Image T) (out0 : Nat → T) (mask : Nat → F) (m h : Nat) (hmh : m = 2 * h + 1)
    (hm : m < 256) (hd : input.dimensions = 2) (hwf : input.WF) (hhw : h ≤ input.width)
    (hhg : h ≤ input.height) (x y : Nat) (hx : x < input.width)
    (hb : x < h ∨ input.width ≤ x + h ∨ y < h ∨ input.height ≤ y + h) :
    (executeAlgorithmOnHost ops input out0 mask m).outputData
        (x * input.nrOfComponents + y * input.nrOfComponents * input.width) =
      out0 (x * input.nrOfComponents + y * input.nrOfComponents * input.width) := by
  have hhalf : halfSizeOf m = h := by
    subst hmh
    exact halfSizeOf_odd h hm
  apply (executeAlgorithmOnHost_two_output ops input out0 mask m h hhalf (by omega) hwf
    hhw hhg).2
  intro u v hu1 hu2 hv1 hv2 heq
  obtain ⟨e1, e2⟩ := index2_inj _ _ _ _ _ _ hwf.comps_pos hx (by omega) heq
  omega

/-! ## The mask cache -/

theorem execute_fst {F T D : Type} (fops : FloatOps F) (hops : HostOps F T D)
    (s : GaussianSmoothingFilter F) (input : Image T) (out0 : Nat → T) :
    (execute fops hops s input out0).1 =
      createMask fops s input.dimensions (effectiveMaskSize fops s) := rfl

theorem createMask_recreate_false {F : Type} (ops : FloatOps F) (s : GaussianSmoothingFilter F)
    (r m : Nat) : (createMask ops s r m).mRecreateMask = false := by
  unfold createMask
  split_ifs with h1 h2 h3
  · simpa using h1
  · rfl
  · rfl
  · rfl

theorem effectiveMaskSize_ctor (exp : ℚ → ℚ) :
    effectiveMaskSize (exactOps ℚ exp) (ctor (exactOps ℚ exp)) = 3 := by
  have hc : ⌈(1 : ℚ)⌉ = 1 := Int.ceil_one
  have hf : ⌊(3 : ℚ)⌋ = 3 := by
    exact_mod_cast (Int.floor_natCast 3 : ⌊((3 : ℕ) : ℚ)⌋ = _)
  simp [exactOps, ctor, effectiveMaskSize, executeMaskSize, executeMaskSizeWith]
  norm_num [hc, hf, toChar, toUChar]
  rfl

/-- C8 (Mask cache freshness), at a concrete sequence of calls: a freshly constructed filter
(sigma 0.5, mask size unset, effective size 3) executes on a rank 2 image and then on a rank 3
image.  The second `execute` leaves the mask untouched: the executor runs on the 9 entries built
for rank 2, whereas the Mask Builder gives 27 entries for rank 3 with the same sigma and size. -/
theorem execute_rank_change_keeps_mask (exp : ℚ → ℚ) (out0 out1 : Nat → Int) :
    effectiveMaskSize (exactOps ℚ exp) (ctor (exactOps ℚ exp)) = 3 ∧
    effectiveMaskSize (exactOps ℚ exp)
      (execute (exactOps ℚ exp) (exactHostOps ℚ) (ctor (exactOps ℚ exp)) rampImage5x5 out0).1 = 3 ∧
    (execute (exactOps ℚ exp) (exactHostOps ℚ)
      (execute (exactOps ℚ exp) (exactHostOps ℚ) (ctor (exactOps ℚ exp)) rampImage5x5 out0).1
      rampVolume5 out1).1.mMask =
      (execute (exactOps ℚ exp) (exactHostOps ℚ) (ctor (exactOps ℚ exp)) rampImage5x5 out0).1.mMask ∧
    (execute (exactOps ℚ exp) (exactHostOps ℚ)
      (execute (exactOps ℚ exp) (exactHostOps ℚ) (ctor (exactOps ℚ exp)) rampImage5x5 out0).1
      rampVolume5 out1).1.mMask.length = 9 ∧
    (createMask (exactOps ℚ exp) (ctor (exactOps ℚ exp)) rampVolume5.dimensions 3).mMask.length
      = 27 := by
  have h3 := effectiveMaskSize_ctor exp
  have hfirst : (execute (exactOps ℚ exp) (exactHostOps ℚ) (ctor (exactOps ℚ exp))
      rampImage5x5 out0).1 = createMask (exactOps ℚ exp) (ctor (exactOps ℚ exp)) 2 3 := by
    rw [execute_fst, h3]
    rfl
  have hflag := createMask_recreate_false (exactOps ℚ exp) (ctor (exactOps ℚ exp)) 2 3
  have hsecond : (execute (exactOps ℚ exp) (exactHostOps ℚ)
      (createMask (exactOps ℚ exp) (ctor (exactOps ℚ exp)) 2 3) rampVolume5 out1).1 =
      createMask (exactOps ℚ exp) (ctor (exactOps ℚ exp)) 2 3 := by
    rw [execute_fst, createMask_of_not_recreate _ _ hflag]
  have hlen2 : (createMask (exactOps ℚ exp) (ctor (exactOps ℚ exp)) 2 3).mMask.length = 9 := by
    rw [createMask_mMask_two _ _ rfl, List.length_map, length_setWrites, List.length_replicate]
  have hlen3 : (createMask (exactOps ℚ exp) (ctor (exactOps ℚ exp)) 3 3).mMask.length = 27 := by
    rw [createMask_mMask_three _ _ rfl, List.length_map, length_setWrites,
      List.length_replicate]
  have hsize : effectiveMaskSize (exactOps ℚ exp)
      (createMask (exactOps ℚ exp) (ctor (exactOps ℚ exp)) 2 3) = 3 := by
    have hsame : ∀ s : GaussianSmoothingFilter ℚ, ∀ r m : Nat,
        effectiveMaskSize (exactOps ℚ exp) (createMask (exactOps ℚ exp) s r m) =
          effectiveMaskSize (exactOps ℚ exp) s := by
      intro s r m
      unfold createMask effectiveMaskSize executeMaskSize executeMaskSizeWith
      split_ifs <;> rfl
    rw [hsame, h3]
  rw [hfirst, hsecond]
  exact ⟨h3, hsize, rfl, hlen2, hlen3⟩

/-! ## The offsets a run accesses -/

theorem convolveAt2_inputReads_mono {F T D : Type} (ops : HostOps F T D) (input : Image T)
    (mask : Nat → F) (m x y : Nat) (st : HostState T) (i : Nat) (hi : i ∈ st.inputReads) :
    i ∈ (convolveAt2 ops input mask m x y st).inputReads := by
  unfold convolveAt2
  simp only
  rw [forInt2_eq_foldl]
  refine foldl_invariant (fun acc : SumState D => i ∈ acc.inputReads) _ _ ?_ _ hi
  intro p _ acc hacc
  exact List.mem_cons_of_mem _ hacc

theorem pixel2_logs_mono {F T D : Type} (ops : HostOps F T D) (input : Image T)
    (mask : Nat → F) (m x y : Nat) (st : HostState T) (i j : Nat)
    (h : i ∈ st.outputWrites ∧ j ∈ st.inputReads) :
    i ∈ (pixel2 ops input mask m x y st).outputWrites ∧
      j ∈ (pixel2 ops input mask m x y st).inputReads := by
  unfold pixel2
  simp only
  split_ifs with hb
  · exact ⟨List.mem_cons_of_mem _ h.1, List.mem_cons_of_mem _ h.2⟩
  · exact ⟨List.mem_cons_of_mem _ h.1, convolveAt2_inputReads_mono ops input mask m x y st j h.2⟩

/-- C10 (Host executor index safety), rank 2 part, at a concrete input: an image 5 pixels wide
and 1 pixel high with one component (a buffer of 5 elements) and mask size 5, so `h = 2`.  The
bound `height - halfSize` of the row loop wraps to `2^32 - 1`, the loop starts at row 2, and its
first pixel `(2, 2)` already reads the input buffer at offset 5 and writes the output buffer at
offset 12. -/
theorem executeAlgorithmOnHost_two_out_of_bounds :
    stripImage5x1.WF ∧ stripImage5x1.size = 5 ∧ halfSizeOf 5 = 2 ∧
    usub stripImage5x1.height (halfSizeOf 5) = 4294967295 ∧
    5 ∈ (executeAlgorithmOnHost (exactHostOps ℚ) stripImage5x1 (fun _ => 0) (fun _ => 0) 5).inputReads ∧
    12 ∈ (executeAlgorithmOnHost (exactHostOps ℚ) stripImage5x1 (fun _ => 0) (fun _ => 0) 5).outputWrites := by
  refine ⟨⟨by decide, by decide, by decide, by decide, by decide⟩, by decide, by decide,
    by decide, ?_⟩
  have hrun : executeAlgorithmOnHost (exactHostOps ℚ) stripImage5x1 (fun _ => 0) (fun _ => 0) 5 =
      (List.range' 3 4294967292).foldl
        (fun st y => pixel2 (exactHostOps ℚ) stripImage5x1 (fun _ => 0) 5 2 y st)
        (pixel2 (exactHostOps ℚ) stripImage5x1 (fun _ => 0) 5 2 2 ⟨fun _ => 0, [], [], []⟩) := by
    have h1 : halfSizeOf 5 = 2 := by decide
    have h2 : usub stripImage5x1.height 2 - 2 = 4294967292 + 1 := by decide
    have h3 : usub stripImage5x1.width 2 - 2 = 1 := by decide
    unfold executeAlgorithmOnHost forLoop
    have hd : ¬ (stripImage5x1.dimensions = 3) := by decide
    have h4 : List.range' 2 1 = [2] := rfl
    simp only [hd, if_false, h1, h3, h4, List.foldl_cons, List.foldl_nil]
    rw [h2, List.range'_succ 2 4294967292 1, List.foldl_cons]
  rw [hrun]
  have hfirst : 12 ∈ (pixel2 (exactHostOps ℚ) stripImage5x1 (fun _ => 0) 5 2 2
        ⟨fun _ => 0, [], [], []⟩).outputWrites ∧
      5 ∈ (pixel2 (exactHostOps ℚ) stripImage5x1 (fun _ => 0) 5 2 2
        ⟨fun _ => 0, [], [], []⟩).inputReads := by
    constructor <;> decide
  have hinv := foldl_invariant
    (fun st : HostState Int => 12 ∈ st.outputWrites ∧ 5 ∈ st.inputReads)
    (fun st y => pixel2 (exactHostOps ℚ) stripImage5x1 (fun _ => 0) 5 2 y st)
    (List.range' 3 4294967292)
    (fun y _ st hst => pixel2_logs_mono (exactHostOps ℚ) stripImage5x1 (fun _ => 0) 5 2 y st
      12 5 hst)
    _ hfirst
  exact ⟨hinv.2, hinv.1⟩

theorem halfSizeOf_two_mul_lt (m : Nat) (h1 : 1 ≤ m) (hm : m < 256) : 2 * halfSizeOf m < m := by
  rw [halfSizeOf_eq m hm]
  omega

theorem convolveAt3_inBounds {F T D : Type} (ops : HostOps F T D) (input : Image T)
    (mask : Nat → F) (m : Nat) (hm1 : 1 ≤ m) (hm : m < 256) (hd : input.dimensions = 3)
    (hwf : input.WF) (x y z : Nat) (hx1 : halfSizeOf m ≤ x)
    (hx2 : x + halfSizeOf m < input.width) (hy1 : halfSizeOf m ≤ y)
    (hy2 : y + halfSizeOf m < input.height) (hz1 : halfSizeOf m ≤ z)
    (hz2 : z + halfSizeOf m < input.depth) (st : HostState T)
    (hst : HostState.InBounds input (m * m * m) st) :
    (∀ i ∈ (convolveAt3 ops input mask m x y z st).inputReads, i < input.size) ∧
    (∀ j ∈ (convolveAt3 ops input mask m x y z st).maskReads,
      0 ≤ j ∧ j < ((m * m * m : Nat) : Int)) := by
  have hsize : input.size = input.width * input.height * input.depth * input.nrOfComponents := by
    simp [Image.size, hd]
  have hsz : input.width * input.height * input.depth * input.nrOfComponents < U32 := by
    have := hwf.size_lt
    rwa [hsize] at this
  have hW := hwf.width_lt
  have hH := hwf.height_lt
  have hD := hwf.depth_lt
  have h2 := halfSizeOf_two_mul_lt m hm1 hm
  unfold convolveAt3
  simp only
  rw [forInt3_eq_foldl]
  refine foldl_invariant (fun acc : SumState D => (∀ i ∈ acc.inputReads, i < input.size) ∧
    (∀ j ∈ acc.maskReads, 0 ≤ j ∧ j < ((m * m * m : Nat) : Int))) _ _ ?_ _ ⟨hst.1, hst.2.2⟩
  intro p hp acc hacc
  obtain ⟨⟨hc1, hc2⟩, ⟨hb1, hb2⟩, ⟨ha1, ha2⟩⟩ := mem_offsets3.1 hp
  have hU : (U32 : Int) = 4294967296 := rfl
  have hWi : (input.width : Int) < 4294967296 := by unfold U32 at hW; omega
  have hHi : (input.height : Int) < 4294967296 := by unfold U32 at hH; omega
  have hDi : (input.depth : Int) < 4294967296 := by unfold U32 at hD; omega
  have e1 : uaddInt x p.2.2 = ((x : Int) + p.2.2).toNat :=
    uaddInt_eq _ _ (by omega) (by rw [hU]; omega)
  have e2 : uaddInt y p.2.1 = ((y : Int) + p.2.1).toNat :=
    uaddInt_eq _ _ (by omega) (by rw [hU]; omega)
  have e3 : uaddInt z p.1 = ((z : Int) + p.1).toNat :=
    uaddInt_eq _ _ (by omega) (by rw [hU]; omega)
  have hlt := index3_lt input.nrOfComponents input.width input.height input.depth
    ((x : Int) + p.2.2).toNat ((y : Int) + p.2.1).toNat ((z : Int) + p.1).toNat
    hwf.comps_pos (by omega) (by omega) (by omega)
  obtain ⟨hm0, hm3⟩ := index3_bounds (m := (m : Int)) (a := p.2.2 + (halfSizeOf m : Int))
    (b := p.2.1 + (halfSizeOf m : Int)) (c := p.1 + (halfSizeOf m : Int))
    (by omega) (by omega) (by omega) (by omega) (by omega) (by omega)
  simp only [accumulate]
  constructor
  · intro i hi
    rcases List.mem_cons.1 hi with h3 | h3
    · rw [h3, offset3_mod, e1, e2, e3, Nat.mod_eq_of_lt (lt_trans hlt hsz), hsize]
      exact hlt
    · exact hacc.1 i h3
  · intro j hj
    rcases List.mem_cons.1 hj with h3 | h3
    · rw [h3]
      push_cast
      exact ⟨hm0, hm3⟩
    · exact hacc.2 j h3

theorem pixel3_inBounds {F T D : Type} (ops : HostOps F T D) (input : Image T)
    (mask : Nat → F) (m : Nat) (hm1 : 1 ≤ m) (hm : m < 256) (hd : input.dimensions = 3)
    (hwf : input.WF) (x y z : Nat) (hx : x < input.width) (hy : y < input.height)
    (hz : z < input.depth) (st : HostState T) (hst : HostState.InBounds input (m * m * m) st) :
    HostState.InBounds input (m * m * m) (pixel3 ops input mask m x y z st) := by
  have hsize : input.size = input.width * input.height * input.depth * input.nrOfComponents := by
    simp [Image.size, hd]
  have hsz : input.width * input.height * input.depth * input.nrOfComponents < U32 := by
    have := hwf.size_lt
    rwa [hsize] at this
  have hlt := index3_lt _ _ _ _ x y z hwf.comps_pos hx hy hz
  have hoff : offset3 input.nrOfComponents input.width input.height x y z < input.size := by
    rw [offset3_mod, Nat.mod_eq_of_lt (lt_trans hlt hsz), hsize]
    exact hlt
  have hh := halfSizeOf_lt m
  have hW := hwf.width_lt
  have hH := hwf.height_lt
  have hD := hwf.depth_lt
  unfold pixel3
  simp only
  split_ifs with hb
  · refine ⟨?_, ?_, hst.2.2⟩
    · intro i hi
      rcases List.mem_cons.1 hi with h3 | h3
      · rw [h3]; exact hoff
      · exact hst.1 i h3
    · intro i hi
      rcases List.mem_cons.1 hi with h3 | h3
      · rw [h3]; exact hoff
      · exact hst.2.1 i h3
  · have hint : halfSizeOf m ≤ x ∧ x + halfSizeOf m < input.width ∧
        halfSizeOf m ≤ y ∧ y + halfSizeOf m < input.height ∧
        halfSizeOf m ≤ z ∧ z + halfSizeOf m < input.depth := by
      unfold usub U32 at *
      omega
    obtain ⟨k1, k2⟩ := convolveAt3_inBounds ops input mask m hm1 hm hd hwf x y z
      hint.1 hint.2.1 hint.2.2.1 hint.2.2.2.1 hint.2.2.2.2.1 hint.2.2.2.2.2 st hst
    refine ⟨k1, ?_, k2⟩
    intro i hi
    rcases List.mem_cons.1 hi with h3 | h3
    · rw [h3]; exact hoff
    · exact hst.2.1 i h3

/-- Index safety of the rank 3 branch: for every well-formed rank 3 image, also one smaller
than `h` along some axis, and every mask size in `[1, 255]`, every offset the executor reads
from the input buffer or writes to the output buffer is below `W*H*D*C`, and every mask index
it reads is in `[0, m³)`. -/
theorem executeAlgorithmOnHost_three_inBounds {F T D : Type} (ops : HostOps F T D)
    (input : Image T) (out0 : Nat → T) (mask : Nat → F) (m : Nat) (hm1 : 1 ≤ m) (hm : m < 256)
    (hd : input.dimensions = 3) (hwf : input.WF) :
    HostState.InBounds input (m * m * m) (executeAlgorithmOnHost ops input out0 mask m) := by
  rw [executeAlgorithmOnHost_three_eq ops input out0 mask m hd]
  refine foldl_invariant (HostState.InBounds input (m * m * m)) _ _ ?_ _ ?_
  · intro p hp st hst
    obtain ⟨h1, h2, h3⟩ := mem_grid3.1 hp
    exact pixel3_inBounds ops input mask m hm1 hm hd hwf p.2.2 p.2.1 p.1 h3 h2 h1 st hst
  · refine ⟨?_, ?_, ?_⟩ <;> intro i hi <;> simp at hi

theorem convolveAt2_inBounds {F T D : Type} (ops : HostOps F T D) (input : Image T)
    (mask : Nat → F) (m : Nat) (hm1 : 1 ≤ m) (hm : m < 256) (hd : input.dimensions ≠ 3)
    (hwf : input.WF) (x y : Nat) (hx1 : halfSizeOf m ≤ x)
    (hx2 : x + halfSizeOf m < input.width) (hy1 : halfSizeOf m ≤ y)
    (hy2 : y + halfSizeOf m < input.height) (st : HostState T)
    (hst : HostState.InBounds input (m * m) st) :
    (∀ i ∈ (convolveAt2 ops input mask m x y st).inputReads, i < input.size) ∧
    (∀ j ∈ (convolveAt2 ops input mask m x y st).maskReads,
      0 ≤ j ∧ j < ((m * m : Nat) : Int)) := by
  have hsize : input.size = input.width * input.height * input.nrOfComponents := by
    simp [Image.size, hd]
  have hsz : input.width * input.height * input.nrOfComponents < U32 := by
    have := hwf.size_lt
    rwa [hsize] at this
  have hW := hwf.width_lt
  have hH := hwf.height_lt
  have h2 := halfSizeOf_two_mul_lt m hm1 hm
  unfold convolveAt2
  simp only
  rw [forInt2_eq_foldl]
  refine foldl_invariant (fun acc : SumState D => (∀ i ∈ acc.inputReads, i < input.size) ∧
    (∀ j ∈ acc.maskReads, 0 ≤ j ∧ j < ((m * m : Nat) : Int))) _ _ ?_ _ ⟨hst.1, hst.2.2⟩
  intro p hp acc hacc
  obtain ⟨⟨hb1, hb2⟩, ⟨ha1, ha2⟩⟩ := mem_offsets2.1 hp
  have hU : (U32 : Int) = 4294967296 := rfl
  have hWi : (input.width : Int) < 4294967296 := by unfold U32 at hW; omega
  have hHi : (input.height : Int) < 4294967296 := by unfold U32 at hH; omega
  have e1 : uaddInt x p.2 = ((x : Int) + p.2).toNat :=
    uaddInt_eq _ _ (by omega) (by rw [hU]; omega)
  have e2 : uaddInt y p.1 = ((y : Int) + p.1).toNat :=
    uaddInt_eq _ _ (by omega) (by rw [hU]; omega)
  have hlt := index2_lt input.nrOfComponents input.width input.height
    ((x : Int) + p.2).toNat ((y : Int) + p.1).toNat hwf.comps_pos (by omega) (by omega)
  obtain ⟨hm0, hm3⟩ := index2_bounds (m := (m : Int)) (a := p.2 + (halfSizeOf m : Int))
    (b := p.1 + (halfSizeOf m : Int)) (by omega) (by omega) (by omega) (by omega)
  simp only [accumulate]
  constructor
  · intro i hi
    rcases List.mem_cons.1 hi with h3 | h3
    · rw [h3, offset2_mod, e1, e2, Nat.mod_eq_of_lt (lt_trans hlt hsz), hsize]
      exact hlt
    · exact hacc.1 i h3
  · intro j hj
    rcases List.mem_cons.1 hj with h3 | h3
    · rw [h3]
      push_cast
      exact ⟨hm0, hm3⟩
    · exact hacc.2 j h3

/-- Index safety of the rank 2 branch when the image is at least `h` wide and high (so that the
loop bounds `extent - halfSize` do not wrap): every offset read or written is below `W*H*C`
and every mask index read is in `[0, m²)`. -/
theorem executeAlgorithmOnHost_two_inBounds {F T D : Type} (ops : HostOps F T D)
    (input : Image T) (out0 : Nat → T) (mask : Nat → F) (m : Nat) (hm1 : 1 ≤ m) (hm : m < 256)
    (hd : input.dimensions ≠ 3) (hwf : input.WF) (hhw : halfSizeOf m ≤ input.width)
    (hhg : halfSizeOf m ≤ input.height) :
    HostState.InBounds input (m * m) (executeAlgorithmOnHost ops input out0 mask m) := by
  have hsize : input.size = input.width * input.height * input.nrOfComponents := by
    simp [Image.size, hd]
  have hsz : input.width * input.height * input.nrOfComponents < U32 := by
    have := hwf.size_lt
    rwa [hsize] at this
  have hW := hwf.width_lt
  have hH := hwf.height_lt
  rw [executeAlgorithmOnHost_two_eq ops input out0 mask m hd]
  refine foldl_invariant (HostState.InBounds input (m * m)) _ _ ?_ _ ?_
  · intro p hp st hst
    obtain ⟨⟨h1, h2⟩, ⟨h3, h4⟩⟩ := (mem_grid2_of_le hW hH hhw hhg).1 hp
    have hlt := index2_lt input.nrOfComponents input.width input.height p.2 p.1
      hwf.comps_pos (by omega) (by omega)
    have hoff : offset2 input.nrOfComponents input.width p.2 p.1 < input.size := by
      rw [offset2_mod, Nat.mod_eq_of_lt (lt_trans hlt hsz), hsize]
      exact hlt
    have hcond : ¬ (p.2 < halfSizeOf m ∨ p.2 ≥ usub input.width (halfSizeOf m) ∨
        p.1 < halfSizeOf m ∨ p.1 ≥ usub input.height (halfSizeOf m)) := by
      unfold usub U32 at *
      omega
    obtain ⟨k1, k2⟩ := convolveAt2_inBounds ops input mask m hm1 hm hd hwf p.2 p.1
      h3 h4 h1 h2 st hst
    unfold pixel2
    simp only
    rw [if_neg hcond]
    refine ⟨k1, ?_, k2⟩
    intro i hi
    rcases List.mem_cons.1 hi with h5 | h5
    · rw [h5]; exact hoff
    · exact hst.2.1 i h5
  · refine ⟨?_, ?_, ?_⟩ <;> intro i hi <;> simp at hi

/-! ## Supporting results on the effective mask size -/

/-- The default-size law where the computed size fits the `char` variable: with the mask size
unset, `sigma > 0` and `2*ceil(2*sigma)+1 <= 127`, the size `execute` uses is
`min(19, 2*ceil(2*sigma)+1)`; it is odd and at least 3. -/
theorem effectiveMaskSize_default {F : Type} [LinearOrderedField F] [FloorRing F] (exp : F → F)
    (s : GaussianSmoothingFilter F) (hunset : s.mMaskSize = -1) (hsigma : 0 < s.mStdDev)
    (hfit : 2 * ⌈2 * s.mStdDev⌉ + 1 ≤ 127) :
    (effectiveMaskSize (exactOps F exp) s : Int) = min 19 (2 * ⌈2 * s.mStdDev⌉ + 1) ∧
    effectiveMaskSize (exactOps F exp) s % 2 = 1 ∧
    3 ≤ effectiveMaskSize (exactOps F exp) s := by
  have hk : 1 ≤ ⌈2 * s.mStdDev⌉ := by
    have : 0 < ⌈2 * s.mStdDev⌉ := Int.ceil_pos.2 (by positivity)
    omega
  have hval : (exactOps F exp).toInt ((exactOps F exp).add ((exactOps F exp).mul
      ((exactOps F exp).ceil ((exactOps F exp).mul ((exactOps F exp).ofInt 2) s.mStdDev))
      ((exactOps F exp).ofInt 2)) ((exactOps F exp).ofInt 1)) = 2 * ⌈2 * s.mStdDev⌉ + 1 := by
    simp only [exactOps]
    have hcast : ((⌈((2 : Int) : F) * s.mStdDev⌉ : Int) : F) * ((2 : Int) : F) + ((1 : Int) : F) =
        ((2 * ⌈2 * s.mStdDev⌉ + 1 : Int) : F) := by
      push_cast
      ring
    rw [hcast]
    have hnn : (0 : F) ≤ ((2 * ⌈2 * s.mStdDev⌉ + 1 : Int) : F) := by
      exact_mod_cast (by omega : (0 : Int) ≤ 2 * ⌈2 * s.mStdDev⌉ + 1)
    rw [if_pos hnn, Int.floor_intCast]
  have hexec : executeMaskSize (exactOps F exp) s = min 19 (2 * ⌈2 * s.mStdDev⌉ + 1) := by
    have h1 : toChar (-1) = -1 := by decide
    have h2 : toChar (2 * ⌈2 * s.mStdDev⌉ + 1) = 2 * ⌈2 * s.mStdDev⌉ + 1 :=
      toChar_of_small _ (by omega) (by omega)
    have h3 : ((-1 : Int) ≤ 0) := by decide
    unfold executeMaskSize executeMaskSizeWith
    simp only [hunset, hval, h1, h2, h3, if_true, min_def]
    split_ifs <;> omega
  unfold effectiveMaskSize toUChar
  rw [hexec]
  omega

/-- Where the implementation makes `char` unsigned, the sentinel `-1` reads back as `255`: a
freshly constructed filter (sigma 0.5, mask size not set) then gets the size 19 instead of
`2*ceil(2*0.5)+1 = 3`. -/
theorem executeMaskSizeWith_unsigned_ctor (exp : ℚ → ℚ) :
    toUChar (executeMaskSizeWith toCharUnsigned (exactOps ℚ exp) (ctor (exactOps ℚ exp))) = 19 := by
  simp [executeMaskSizeWith, toCharUnsigned, ctor, toUChar]

/-- An odd size above 127 is accepted by `setMaskSize` but is read back by `execute` through a
`char`, where it is negative: the size is then computed from sigma as if none had been set
(here 201 with the default sigma 0.5 gives the effective size 3). -/
theorem setMaskSize_large_treated_as_unset (exp : ℚ → ℚ) :
    (setMaskSize (ctor (exactOps ℚ exp)) 201).1 = none ∧
    effectiveMaskSize (exactOps ℚ exp) (setMaskSize (ctor (exactOps ℚ exp)) 201).2 = 3 := by
  have hc : ⌈(1 : ℚ)⌉ = 1 := Int.ceil_one
  have hf : ⌊(3 : ℚ)⌋ = 3 := by
    exact_mod_cast (Int.floor_natCast 3 : ⌊((3 : ℕ) : ℚ)⌋ = _)
  refine ⟨by simp [setMaskSize], ?_⟩
  simp [setMaskSize, exactOps, ctor, effectiveMaskSize, executeMaskSize, executeMaskSizeWith]
  norm_num [hc, hf, toChar, toUChar]
  rfl

/-! ## Supporting results on the mask cache -/

theorem createMask_mMask_of_recreate {F : Type} (ops : FloatOps F)
    (s : GaussianSmoothingFilter F) (hs : s.mRecreateMask = true) (r m : Nat)
    (hr : r = 2 ∨ r = 3) : (createMask ops s r m).mMask = builtMask ops r s.mStdDev m := by
  unfold createMask builtMask
  rcases hr with rfl | rfl
  · simp [hs]
  · simp [hs]

theorem createMask_keeps_config {F : Type} (ops : FloatOps F) (s : GaussianSmoothingFilter F)
    (r m : Nat) :
    (createMask ops s r m).mStdDev = s.mStdDev ∧
      (createMask ops s r m).mMaskSize = s.mMaskSize := by
  unfold createMask
  split_ifs <;> exact ⟨rfl, rfl⟩

theorem effectiveMaskSize_congr {F : Type} (ops : FloatOps F)
    (s t : GaussianSmoothingFilter F) (h1 : s.mStdDev = t.mStdDev)
    (h2 : s.mMaskSize = t.mMaskSize) : effectiveMaskSize ops s = effectiveMaskSize ops t := by
  unfold effectiveMaskSize executeMaskSize executeMaskSizeWith
  rw [h1, h2]

/-- As long as the rank of the input does not change, the cache is fresh: if the mask held by
the filter is the one built for rank `r` whenever it is not flagged stale, then after `execute`
on a rank `r` image the mask the executor used is the one the Mask Builder produces for `r`,
the current sigma and the current effective mask size, and it is not flagged stale. -/
theorem execute_mask_fresh_same_rank {F T D : Type} (fops : FloatOps F) (hops : HostOps F T D)
    (s : GaussianSmoothingFilter F) (input : Image T) (out0 : Nat → T)
    (hr : input.dimensions = 2 ∨ input.dimensions = 3)
    (hinv : s.mRecreateMask = false →
      s.mMask = builtMask fops input.dimensions s.mStdDev (effectiveMaskSize fops s)) :
    (execute fops hops s input out0).1.mMask =
      builtMask fops input.dimensions (execute fops hops s input out0).1.mStdDev
        (effectiveMaskSize fops (execute fops hops s input out0).1) ∧
    (execute fops hops s input out0).1.mRecreateMask = false := by
  rw [execute_fst]
  obtain ⟨k1, k2⟩ := createMask_keeps_config fops s input.dimensions (effectiveMaskSize fops s)
  have hsize : effectiveMaskSize fops
      (createMask fops s input.dimensions (effectiveMaskSize fops s)) =
      effectiveMaskSize fops s := effectiveMaskSize_congr fops _ _ k1 k2
  refine ⟨?_, createMask_recreate_false _ _ _ _⟩
  rw [hsize, k1]
  cases hflag : s.mRecreateMask with
  | true => exact createMask_mMask_of_recreate fops s hflag _ _ hr
  | false =>
    rw [createMask_of_not_recreate fops s hflag]
    exact hinv hflag

/-! ## The convolution and the DC gain in exact arithmetic -/

theorem foldl_add_mul_const {ι F : Type} [CommSemiring F] (l : List ι) (g : ι → F) (c : F) :
    l.foldl (fun acc p => acc + g p * c) 0 = (l.map g).sum * c := by
  have h : ∀ s : F, l.foldl (fun acc p => acc + g p * c) s = s + (l.map g).sum * c := by
    induction l with
    | nil => intro s; simp
    | cons a t ih =>
      intro s
      simp only [List.foldl_cons, List.map_cons, List.sum_cons, ih]
      ring
  rw [h 0, zero_add]

theorem exactHostOps_cast_intCast (F : Type) [LinearOrderedField F] [FloorRing F] (c : Int) :
    (exactHostOps F).cast (c : F) = c := by
  simp only [exactHostOps]
  split_ifs
  · exact Int.floor_intCast c
  · exact Int.ceil_intCast c

theorem sum_mask2_eq_one {F : Type} [LinearOrderedField F] [FloorRing F] (exp : F → F)
    (hexp : ∀ x, 0 < exp x) (s : GaussianSmoothingFilter F) (hs : s.mRecreateMask = true)
    (h : Nat) (hm : 2 * h + 1 < 256) :
    ((offsets2 (h : Int)).map (fun p =>
      (createMask (exactOps F exp) s 2 (2 * h + 1)).mMask.getD
        (p.2 + (h : Int) + (p.1 + (h : Int)) * ((2 * h + 1 : Nat) : Int)).toNat 0)).sum = 1 := by
  have hent := (createMask_two_exact exp hexp s hs h hm).2.2.2
  have hpos := gaussTotal2_pos exp hexp s.mStdDev h
  have hmap : (offsets2 (h : Int)).map (fun p =>
      (createMask (exactOps F exp) s 2 (2 * h + 1)).mMask.getD
        (p.2 + (h : Int) + (p.1 + (h : Int)) * ((2 * h + 1 : Nat) : Int)).toNat 0) =
      (offsets2 (h : Int)).map (fun p =>
        gaussWeight exp s.mStdDev (p.2 ^ 2 + p.1 ^ 2) / gaussTotal2 exp s.mStdDev h) := by
    apply List.map_congr_left
    intro p hp
    obtain ⟨⟨h1, h2⟩, ⟨h3, h4⟩⟩ := mem_offsets2.1 hp
    rw [List.getD_eq_getElem?_getD, hent p.2 p.1 h3 h4 h1 h2]
    rfl
  rw [hmap, sum_map_offsets2]
  simp only [← Finset.sum_div]
  have hswap : (∑ x ∈ Finset.Icc (-(h : Int)) h, ∑ y ∈ Finset.Icc (-(h : Int)) h,
      gaussWeight exp s.mStdDev (y ^ 2 + x ^ 2)) = gaussTotal2 exp s.mStdDev h := by
    unfold gaussTotal2
    refine Finset.sum_congr rfl (fun x _ => Finset.sum_congr rfl (fun y _ => ?_))
    rw [add_comm]
  rw [hswap]
  exact div_self hpos.ne'

theorem sum_mask3_eq_one {F : Type} [LinearOrderedField F] [FloorRing F] (exp : F → F)
    (hexp : ∀ x, 0 < exp x) (s : GaussianSmoothingFilter F) (hs : s.mRecreateMask = true)
    (h : Nat) (hm : 2 * h + 1 < 256) :
    ((offsets3 (h : Int)).map (fun p =>
      (createMask (exactOps F exp) s 3 (2 * h + 1)).mMask.getD
        (p.2.2 + (h : Int) + (p.2.1 + (h : Int)) * ((2 * h + 1 : Nat) : Int)
          + (p.1 + (h : Int)) * ((2 * h + 1 : Nat) : Int) * ((2 * h + 1 : Nat) : Int)).toNat
        0)).sum = 1 := by
  have hent := (createMask_three_exact exp hexp s hs h hm).2.2.2
  have hpos := gaussTotal3_pos exp hexp s.mStdDev h
  have hmap : (offsets3 (h : Int)).map (fun p =>
      (createMask (exactOps F exp) s 3 (2 * h + 1)).mMask.getD
        (p.2.2 + (h : Int) + (p.2.1 + (h : Int)) * ((2 * h + 1 : Nat) : Int)
          + (p.1 + (h : Int)) * ((2 * h + 1 : Nat) : Int) * ((2 * h + 1 : Nat) : Int)).toNat
        0) =
      (offsets3 (h : Int)).map (fun p =>
        gaussWeight exp s.mStdDev (p.2.2 ^ 2 + p.2.1 ^ 2 + p.1 ^ 2) /
          gaussTotal3 exp s.mStdDev h) := by
    apply List.map_congr_left
    intro p hp
    obtain ⟨⟨h1, h2⟩, ⟨h3, h4⟩, ⟨h5, h6⟩⟩ := mem_offsets3.1 hp
    rw [List.getD_eq_getElem?_getD, hent p.2.2 p.2.1 p.1 h5 h6 h3 h4 h1 h2]
    rfl
  rw [hmap, sum_map_offsets3]
  simp only [← Finset.sum_div]
  have hswap : (∑ x ∈ Finset.Icc (-(h : Int)) h, ∑ y ∈ Finset.Icc (-(h : Int)) h,
      ∑ z ∈ Finset.Icc (-(h : Int)) h, gaussWeight exp s.mStdDev (z ^ 2 + y ^ 2 + x ^ 2)) =
      gaussTotal3 exp s.mStdDev h := by
    unfold gaussTotal3
    refine Finset.sum_congr rfl (fun x _ => Finset.sum_congr rfl (fun y _ =>
      Finset.sum_congr rfl (fun z _ => ?_)))
    congr 1
    ring
  rw [hswap]
  exact div_self hpos.ne'

theorem foldl_add_eq_sum_map {ι F : Type} [AddCommMonoid F] (l : List ι) (f : ι → F) :
    l.foldl (fun acc p => acc + f p) 0 = (l.map f).sum := by
  have h : ∀ s : F, l.foldl (fun acc p => acc + f p) s = s + (l.map f).sum := by
    induction l with
    | nil => intro s; simp
    | cons a t ih =>
      intro s
      simp only [List.foldl_cons, List.map_cons, List.sum_cons, ih, add_assoc]
  rw [h 0, zero_add]

/-- In exact arithmetic the accumulation of the rank 2 convolution loops is the sum over all
offsets of `[-h, h]²`. -/
theorem convolve2_exact {F : Type} [LinearOrderedField F] [FloorRing F] (input : Image Int)
    (mask : Nat → F) (m h x y : Nat) :
    convolve2 (exactHostOps F) input mask m h x y =
      ∑ b ∈ Finset.Icc (-(h : Int)) h, ∑ a ∈ Finset.Icc (-(h : Int)) h,
        mask (a + (h : Int) + (b + (h : Int)) * (m : Int)).toNat *
          ((input.data (((x : Int) + a).toNat * input.nrOfComponents
            + ((y : Int) + b).toNat * input.nrOfComponents * input.width) : Int) : F) := by
  have hadd : ∀ a b : F, (exactHostOps F).add a b = a + b := fun _ _ => rfl
  have hprod : ∀ (w : F) (v : Int), (exactHostOps F).prod w v = w * (v : F) := fun _ _ => rfl
  have hz : (exactHostOps F).zero = 0 := rfl
  unfold convolve2
  simp only [hadd, hprod, hz]
  rw [foldl_add_eq_sum_map, sum_map_offsets2]

/-- In exact arithmetic the accumulation of the rank 3 convolution loops is the sum over all
offsets of `[-h, h]³`. -/
theorem convolve3_exact {F : Type} [LinearOrderedField F] [FloorRing F] (input : Image Int)
    (mask : Nat → F) (m h x y z : Nat) :
    convolve3 (exactHostOps F) input mask m h x y z =
      ∑ c ∈ Finset.Icc (-(h : Int)) h, ∑ b ∈ Finset.Icc (-(h : Int)) h,
        ∑ a ∈ Finset.Icc (-(h : Int)) h,
          mask (a + (h : Int) + (b + (h : Int)) * (m : Int)
              + (c + (h : Int)) * (m : Int) * (m : Int)).toNat *
            ((input.data (((x : Int) + a).toNat * input.nrOfComponents
              + ((y : Int) + b).toNat * input.nrOfComponents * input.width
              + ((z : Int) + c).toNat * input.nrOfComponents * input.width * input.height)
                : Int) : F) := by
  have hadd : ∀ a b : F, (exactHostOps F).add a b = a + b := fun _ _ => rfl
  have hprod : ∀ (w : F) (v : Int), (exactHostOps F).prod w v = w * (v : F) := fun _ _ => rfl
  have hz : (exactHostOps F).zero = 0 := rfl
  unfold convolve3
  simp only [hadd, hprod, hz]
  rw [foldl_add_eq_sum_map, sum_map_offsets3]

/-- DC gain in exact arithmetic.  With every `float` and `double` operation replaced by the
exact operation of an ordered field, a constant integer-valued image `c` and the mask built by
`createMask`, every interior output pixel of the host executor equals `c`: the accumulated sum
is exactly `c`.  (The statement is about exact arithmetic only: with the rounding of `float` the
accumulated sum can fall just below `c`, and the truncating conversion `(T)sum` then gives
`c - 1`.) -/
theorem executeAlgorithmOnHost_dc_exact {F : Type} [LinearOrderedField F] [FloorRing F]
    (exp : F → F) (hexp : ∀ x, 0 < exp x) (s : GaussianSmoothingFilter F)
    (hs : s.mRecreateMask = true) (m h : Nat) (hmh : m = 2 * h + 1) (hm : m < 256)
    (input : Image Int) (hwf : input.WF) (c : Int) (hconst : ∀ i, input.data i = c)
    (out0 : Nat → Int) :
    (input.dimensions = 2 → ∀ x y : Nat,
      h ≤ x → x + h < input.width → h ≤ y → y + h < input.height →
      (executeAlgorithmOnHost (exactHostOps F) input out0
        (fun i => (createMask (exactOps F exp) s 2 m).mMask.getD i 0) m).outputData
        (x * input.nrOfComponents + y * input.nrOfComponents * input.width) = c) ∧
    (input.dimensions = 3 → ∀ x y z : Nat,
      h ≤ x → x + h < input.width → h ≤ y → y + h < input.height →
      h ≤ z → z + h < input.depth →
      (executeAlgorithmOnHost (exactHostOps F) input out0
        (fun i => (createMask (exactOps F exp) s 3 m).mMask.getD i 0) m).outputData
        (x * input.nrOfComponents + y * input.nrOfComponents * input.width
          + z * input.nrOfComponents * input.width * input.height) = c) := by
  subst hmh
  have hhalf : halfSizeOf (2 * h + 1) = h := halfSizeOf_odd h hm
  have hadd : ∀ a b : F, (exactHostOps F).add a b = a + b := fun _ _ => rfl
  have hprod : ∀ (w : F) (v : Int), (exactHostOps F).prod w v = w * (v : F) := fun _ _ => rfl
  have hz : (exactHostOps F).zero = 0 := rfl
  constructor
  · intro hd x y hx1 hx2 hy1 hy2
    rw [(executeAlgorithmOnHost_two_output (exactHostOps F) input out0 _ (2 * h + 1) h hhalf
      (by omega) hwf (by omega) (by omega)).1 x y hx1 hx2 hy1 hy2]
    unfold convolve2
    simp only [hadd, hprod, hz, hconst]
    rw [foldl_add_mul_const (offsets2 (h : Int)) _ (c : F),
      sum_mask2_eq_one exp hexp s hs h hm, one_mul]
    exact exactHostOps_cast_intCast F c
  · intro hd x y z hx1 hx2 hy1 hy2 hz1 hz2
    rw [(executeAlgorithmOnHost_three_output (exactHostOps F) input out0 _ (2 * h + 1) h hhalf
      hd hwf).1 x y z (by omega) (by omega) (by omega)]
    unfold specValue3 convolve3
    rw [if_neg (by omega)]
    simp only [hadd, hprod, hz, hconst]
    rw [foldl_add_mul_const (offsets3 (h : Int)) _ (c : F),
      sum_mask3_eq_one exp hexp s hs h hm, one_mul]
    exact exactHostOps_cast_intCast F c

end FAST
